import Mathlib

/-!
Verification of the quack-check pipeline orchestrator.

Each Rust function under `src/` that the claims depend on is shallowly
embedded as a Lean definition operating on `Nat`, `List Char` (text) and
`List Nat` (bytes).  External crates (the SHA-2 hasher, the regex engine and
the Unicode normalizer) are the only parts not re-traced from this
repository: SHA-256 is implemented from its public standard, and the regex
matcher and NFKC normalizer are passed in as function parameters.
-/

namespace QuackCheck

/-- A 1-based inclusive page range (`PageRange` in `src/chunk_plan.rs`). -/
structure PageRange where
  start_page : Nat
  end_page : Nat
deriving DecidableEq, Repr

/-- Number of pages of a range (both endpoints inclusive). -/
def PageRange.pages (r : PageRange) : Nat := r.end_page + 1 - r.start_page

/-- The `[chunking]` configuration table (`Chunking` in `src/config.rs`),
restricted to the fields read by `ChunkPlan::from_page_count`. -/
structure ChunkingCfg where
  strategy : String
  target_pages_per_chunk : Nat
  max_pages_per_chunk : Nat
  min_pages_per_chunk : Nat
deriving DecidableEq, Repr

/-- A chunk plan (`ChunkPlan` in `src/chunk_plan.rs`). -/
structure ChunkPlan where
  page_count : Nat
  chunks : List PageRange
  strategy : String
deriving DecidableEq, Repr

/-- One iteration of the loop body of `ChunkPlan::from_page_count`
(`src/chunk_plan.rs` lines 44-53): the final `end` page chosen for the chunk
that starts at page `p`, where `nonempty` records `!chunks.is_empty()`. -/
def chunkEnd (target maxp minp pageCount p : Nat) (nonempty : Bool) : Nat :=
  let e1 := min (p + target - 1) pageCount
  let e2 := if maxp < e1 - p + 1 then p + maxp - 1 else e1
  if 0 < pageCount - e2 ∧ pageCount - e2 < minp ∧ nonempty = true then pageCount
  else e2

theorem le_chunkEnd (target maxp minp pageCount p : Nat) (b : Bool)
    (ht : 1 ≤ target) (hm : 1 ≤ maxp) (hp : p ≤ pageCount) :
    p ≤ chunkEnd target maxp minp pageCount p b := by
  simp only [chunkEnd]
  split_ifs <;> omega

theorem chunkEnd_le (target maxp minp pageCount p : Nat) (b : Bool)
    (hp : p ≤ pageCount) :
    chunkEnd target maxp minp pageCount p b ≤ pageCount := by
  simp only [chunkEnd]
  split_ifs <;> omega

/-- The `while` loop of `ChunkPlan::from_page_count` (`src/chunk_plan.rs`
lines 43-60), with the cursor `p` and the accumulated `chunks` made explicit.
The two hypotheses record the clamping `.max(1)` applied to `target` and
`maxp` before the loop is entered; they make the loop terminate. -/
def fromPageCountLoop (target maxp minp pageCount : Nat) (ht : 1 ≤ target)
    (hm : 1 ≤ maxp) (p : Nat) (chunks : List PageRange) : List PageRange :=
  if h : p ≤ pageCount then
    fromPageCountLoop target maxp minp pageCount ht hm
      (chunkEnd target maxp minp pageCount p (!chunks.isEmpty) + 1)
      (chunks ++ [⟨p, chunkEnd target maxp minp pageCount p (!chunks.isEmpty)⟩])
  else chunks
termination_by pageCount + 1 - p
decreasing_by
  have h1 := le_chunkEnd target maxp minp pageCount p (!chunks.isEmpty) ht hm h
  omega

theorem fromPageCountLoop_step (target maxp minp pageCount : Nat)
    (ht : 1 ≤ target) (hm : 1 ≤ maxp) (p : Nat) (chunks : List PageRange)
    (h : p ≤ pageCount) :
    fromPageCountLoop target maxp minp pageCount ht hm p chunks =
      fromPageCountLoop target maxp minp pageCount ht hm
        (chunkEnd target maxp minp pageCount p (!chunks.isEmpty) + 1)
        (chunks ++ [⟨p, chunkEnd target maxp minp pageCount p (!chunks.isEmpty)⟩]) := by
  rw [fromPageCountLoop, dif_pos h]

theorem fromPageCountLoop_done (target maxp minp pageCount : Nat)
    (ht : 1 ≤ target) (hm : 1 ≤ maxp) (p : Nat) (chunks : List PageRange)
    (h : pageCount < p) :
    fromPageCountLoop target maxp minp pageCount ht hm p chunks = chunks := by
  rw [fromPageCountLoop, dif_neg (by omega)]

/-- `ChunkPlan::from_page_count` (`src/chunk_plan.rs` lines 35-67). -/
def ChunkPlan.fromPageCount (cfg : ChunkingCfg) (pageCount : Nat) : ChunkPlan :=
  { page_count := pageCount
    chunks :=
      fromPageCountLoop (max cfg.target_pages_per_chunk 1)
        (max cfg.max_pages_per_chunk 1)
        (min (max cfg.min_pages_per_chunk 1) (max cfg.max_pages_per_chunk 1))
        pageCount (Nat.le_max_right _ _) (Nat.le_max_right _ _) 1 []
    strategy := cfg.strategy }

/-- `rs` tiles the page interval `[s, pageCount]` exactly: the first range
starts at `s`, ranges are contiguous and increasing, and the last range ends
at `pageCount`. -/
def coversFrom (s pageCount : Nat) : List PageRange → Prop
  | [] => s = pageCount + 1
  | r :: rs => r.start_page = s ∧ s ≤ r.end_page ∧ r.end_page ≤ pageCount ∧
      coversFrom (r.end_page + 1) pageCount rs

theorem chunkEnd_span (target maxp minp pageCount p : Nat) (b : Bool)
    (hm : 1 ≤ maxp) (hp : p ≤ pageCount) :
    chunkEnd target maxp minp pageCount p b + 1 - p ≤ maxp ∨
      (chunkEnd target maxp minp pageCount p b = pageCount ∧
        pageCount + 1 - p ≤ maxp + minp - 1) := by
  simp only [chunkEnd]
  split_ifs <;> omega

theorem fromPageCountLoop_invariant (target maxp minp pageCount : Nat)
    (ht : 1 ≤ target) (hm : 1 ≤ maxp) (hmn : 1 ≤ minp) :
    ∀ fuel p chunks, pageCount + 1 - p ≤ fuel → p ≤ pageCount + 1 →
      ∃ rest, fromPageCountLoop target maxp minp pageCount ht hm p chunks =
          chunks ++ rest ∧ coversFrom p pageCount rest ∧
          (∀ r ∈ rest.dropLast, r.pages ≤ maxp) ∧
          (∀ r, rest.getLast? = some r → r.pages ≤ maxp + minp - 1) := by
  intro fuel
  induction fuel with
  | zero =>
      intro p chunks hfuel hp
      refine ⟨[], ?_, ?_, by simp, by simp⟩
      · rw [fromPageCountLoop_done _ _ _ _ _ _ _ _ (by omega)]
        simp
      · simp only [coversFrom]
        omega
  | succ n ih =>
      intro p chunks hfuel hp
      by_cases h : p ≤ pageCount
      · rw [fromPageCountLoop_step _ _ _ _ _ _ _ _ h]
        set e := chunkEnd target maxp minp pageCount p (!chunks.isEmpty) with he
        have hpe : p ≤ e := le_chunkEnd _ _ _ _ _ _ ht hm h
        have hep : e ≤ pageCount := chunkEnd_le _ _ _ _ _ _ h
        obtain ⟨rest, heq, hcov, hdrop, hlast⟩ :=
          ih (e + 1) (chunks ++ [⟨p, e⟩]) (by omega) (by omega)
        have hspan := chunkEnd_span target maxp minp pageCount p
          (!chunks.isEmpty) hm h
        rw [← he] at hspan
        refine ⟨⟨p, e⟩ :: rest, by rw [heq]; simp, ?_, ?_, ?_⟩
        · exact ⟨rfl, hpe, hep, hcov⟩
        · cases rest with
          | nil => simp
          | cons a l =>
              intro r hr
              rw [List.dropLast_cons_of_ne_nil (by simp)] at hr
              rcases List.mem_cons.mp hr with h1 | h1
              · subst h1
                have ha := hcov.1
                have ha2 := hcov.2.1
                have ha3 := hcov.2.2.1
                rcases hspan with h2 | h2
                · simpa [PageRange.pages] using h2
                · omega
              · exact hdrop r h1
        · intro r hr
          cases rest with
          | nil =>
              simp at hr
              subst hr
              simp only [coversFrom] at hcov
              rcases hspan with h2 | h2 <;>
                simp only [PageRange.pages] <;> omega
          | cons a l =>
              rw [List.getLast?_cons_cons] at hr
              exact hlast r hr
      · refine ⟨[], ?_, ?_, by simp, by simp⟩
        · rw [fromPageCountLoop_done _ _ _ _ _ _ _ _ (by omega)]
          simp
        · simp only [coversFrom]
          omega

theorem coversFrom_mem_le (pageCount : Nat) :
    ∀ (l : List PageRange) (s : Nat), coversFrom s pageCount l →
      ∀ r ∈ l, r.start_page ≤ r.end_page := by
  intro l
  induction l with
  | nil =>
      intro s _ r hr
      simp at hr
  | cons a t ihl =>
      intro s hc r hr
      rcases List.mem_cons.mp hr with h1 | h1
      · subst h1
        exact hc.1 ▸ hc.2.1
      · exact ihl _ hc.2.2.2 r h1

theorem coversFrom_getLast_end (pageCount : Nat) :
    ∀ (l : List PageRange) (s : Nat), coversFrom s pageCount l →
      ∀ r, l.getLast? = some r → r.end_page = pageCount := by
  intro l
  induction l with
  | nil =>
      intro s _ r hr
      simp at hr
  | cons a t ihl =>
      intro s hc r hr
      cases t with
      | nil =>
          simp at hr
          subst hr
          have h4 := hc.2.2.2
          simp only [coversFrom] at h4
          omega
      | cons b u =>
          rw [List.getLast?_cons_cons] at hr
          exact ihl _ hc.2.2.2 r hr

theorem coversFrom_chain (pageCount : Nat) :
    ∀ (l : List PageRange) (s : Nat), coversFrom s pageCount l →
      ∀ i (hi : i + 1 < l.length),
        (l.get ⟨i + 1, hi⟩).start_page =
          (l.get ⟨i, Nat.lt_of_succ_lt hi⟩).end_page + 1 := by
  intro l
  induction l with
  | nil =>
      intro s _ i hi
      simp at hi
  | cons a t ihl =>
      intro s hc i hi
      cases i with
      | zero =>
          cases t with
          | nil => simp at hi
          | cons b u =>
              have h4 := hc.2.2.2
              show b.start_page = a.end_page + 1
              exact h4.1
      | succ j =>
          have h4 := hc.2.2.2
          have hj : j + 1 < t.length := by
            simpa using Nat.lt_of_succ_lt_succ hi
          have := ihl _ h4 j hj
          simpa using this

/-- C1: for every `page_count ≥ 1` and every chunking configuration, the
chunk list returned by `ChunkPlan::from_page_count` partitions
`[1, page_count]` exactly: it is nonempty, the first range starts at page 1,
each subsequent range starts at the previous range's end plus one, every
range satisfies `start_page ≤ end_page`, and the last range ends at
`page_count` — no gaps, no overlaps, ranges in strictly increasing order. -/
theorem chunk_plan_partitions_exactly (cfg : ChunkingCfg) (pageCount : Nat)
    (hpc : 1 ≤ pageCount) :
    (ChunkPlan.fromPageCount cfg pageCount).chunks ≠ [] ∧
    (∀ r ∈ (ChunkPlan.fromPageCount cfg pageCount).chunks,
      r.start_page ≤ r.end_page) ∧
    ((ChunkPlan.fromPageCount cfg pageCount).chunks.head?.map
      PageRange.start_page = some 1) ∧
    ((ChunkPlan.fromPageCount cfg pageCount).chunks.getLast?.map
      PageRange.end_page = some pageCount) ∧
    (∀ i (hi : i + 1 < (ChunkPlan.fromPageCount cfg pageCount).chunks.length),
      ((ChunkPlan.fromPageCount cfg pageCount).chunks.get
        ⟨i + 1, hi⟩).start_page =
        ((ChunkPlan.fromPageCount cfg pageCount).chunks.get
          ⟨i, Nat.lt_of_succ_lt hi⟩).end_page + 1) := by
  obtain ⟨rest, heq, hcov, hdrop, hlast⟩ :=
    fromPageCountLoop_invariant (max cfg.target_pages_per_chunk 1)
      (max cfg.max_pages_per_chunk 1)
      (min (max cfg.min_pages_per_chunk 1) (max cfg.max_pages_per_chunk 1))
      pageCount (Nat.le_max_right _ _) (Nat.le_max_right _ _)
      (le_min (Nat.le_max_right _ _) (Nat.le_max_right _ _))
      (pageCount + 1) 1 [] (by omega) (by omega)
  have hchunks : (ChunkPlan.fromPageCount cfg pageCount).chunks = rest := by
    simpa [ChunkPlan.fromPageCount] using heq
  rw [hchunks]
  have hne : rest ≠ [] := by
    intro hnil
    subst hnil
    simp only [coversFrom] at hcov
    omega
  refine ⟨hne, coversFrom_mem_le pageCount rest 1 hcov, ?_, ?_,
    coversFrom_chain pageCount rest 1 hcov⟩
  · cases rest with
    | nil => exact absurd rfl hne
    | cons a t =>
        simp only [List.head?_cons, Option.map_some']
        exact congrArg some hcov.1
  · rw [List.getLast?_eq_getLast rest hne]
    simp only [Option.map_some']
    exact congrArg some
      (coversFrom_getLast_end pageCount rest 1 hcov _
        (List.getLast?_eq_getLast rest hne))

/-- Witness for C1: the default chunking configuration on a 101-page
document. -/
theorem chunk_plan_partitions_exactly_witness :
    (1 : Nat) ≤ 101 ∧
    ((ChunkPlan.fromPageCount ⟨"physical_split", 40, 80, 10⟩ 101).chunks ≠ [] ∧
    (∀ r ∈ (ChunkPlan.fromPageCount ⟨"physical_split", 40, 80, 10⟩ 101).chunks,
      r.start_page ≤ r.end_page) ∧
    ((ChunkPlan.fromPageCount ⟨"physical_split", 40, 80, 10⟩ 101).chunks.head?.map
      PageRange.start_page = some 1) ∧
    ((ChunkPlan.fromPageCount ⟨"physical_split", 40, 80, 10⟩ 101).chunks.getLast?.map
      PageRange.end_page = some 101) ∧
    (∀ i (hi : i + 1 <
        (ChunkPlan.fromPageCount ⟨"physical_split", 40, 80, 10⟩ 101).chunks.length),
      ((ChunkPlan.fromPageCount ⟨"physical_split", 40, 80, 10⟩ 101).chunks.get
        ⟨i + 1, hi⟩).start_page =
        ((ChunkPlan.fromPageCount ⟨"physical_split", 40, 80, 10⟩ 101).chunks.get
          ⟨i, Nat.lt_of_succ_lt hi⟩).end_page + 1)) :=
  ⟨by decide, chunk_plan_partitions_exactly ⟨"physical_split", 40, 80, 10⟩ 101
    (by decide)⟩

/-- Modelled from the spec: the naive greedy split (no tail merge) walks the
document in successive `target`-page chunks, so it emits
`⌈page_count / target⌉` chunks.  This is the comparison baseline the spec's
tail-merge property refers to; it is not part of the source. -/
def naiveGreedyChunkCount (target pageCount : Nat) : Nat :=
  (pageCount + target - 1) / target

/-- Counterexample to C2 as stated: with `target = 40`, `max = 80`,
`min = 10` and `page_count = target + min − 1 = 49`, the planner emits
`[1-40, 41-49]` — the same number of chunks (two) as the naive greedy
split, not one fewer, because the tail-merge guard `!chunks.is_empty()`
is false while the first chunk is being formed; and the final chunk of
this two-chunk plan has only `9 < min` pages. -/
theorem chunk_plan_tail_merge_counterexample :
    (ChunkPlan.fromPageCount ⟨"physical_split", 40, 80, 10⟩ 49).chunks =
      [⟨1, 40⟩, ⟨41, 49⟩] ∧
    naiveGreedyChunkCount 40 49 = 2 ∧
    ¬ ((ChunkPlan.fromPageCount ⟨"physical_split", 40, 80, 10⟩
        49).chunks.length = naiveGreedyChunkCount 40 49 - 1) ∧
    1 < (ChunkPlan.fromPageCount ⟨"physical_split", 40, 80, 10⟩
        49).chunks.length ∧
    ¬ (∀ r, (ChunkPlan.fromPageCount ⟨"physical_split", 40, 80, 10⟩
        49).chunks.getLast? = some r → 10 ≤ r.pages) := by
  have h : (ChunkPlan.fromPageCount ⟨"physical_split", 40, 80, 10⟩ 49).chunks =
      [⟨1, 40⟩, ⟨41, 49⟩] := by
    simp [ChunkPlan.fromPageCount, fromPageCountLoop, chunkEnd]
  refine ⟨h, by norm_num [naiveGreedyChunkCount], ?_, ?_, ?_⟩
  · rw [h]
    norm_num [naiveGreedyChunkCount]
  · rw [h]
    norm_num
  · rw [h]
    intro hall
    have := hall ⟨41, 49⟩ rfl
    simp [PageRange.pages] at this

theorem chunkEnd_merge_small (target maxp minp pageCount p : Nat)
    (hm : 1 ≤ maxp) (hmm : minp ≤ maxp) (hp : p ≤ pageCount)
    (hsmall : pageCount + 1 - p < minp) :
    chunkEnd target maxp minp pageCount p true = pageCount := by
  simp only [chunkEnd, show (true = true) = True from by simp, and_true]
  split_ifs <;> omega

theorem chunkEnd_remaining (target maxp minp pageCount p : Nat)
    (hp : p ≤ pageCount)
    (hlt : chunkEnd target maxp minp pageCount p true < pageCount) :
    minp ≤ pageCount - chunkEnd target maxp minp pageCount p true := by
  revert hlt
  simp only [chunkEnd, show (true = true) = True from by simp, and_true]
  split_ifs <;> intro hlt <;> omega

theorem fromPageCountLoop_last_min (target maxp minp pageCount : Nat)
    (ht : 1 ≤ target) (hm : 1 ≤ maxp) (hmm : minp ≤ maxp) :
    ∀ fuel p chunks, pageCount + 1 - p ≤ fuel → p ≤ pageCount →
      chunks ≠ [] → minp ≤ pageCount + 1 - p →
      ∃ rest, fromPageCountLoop target maxp minp pageCount ht hm p chunks =
          chunks ++ rest ∧ rest ≠ [] ∧
          (∀ r, rest.getLast? = some r → minp ≤ r.pages) := by
  intro fuel
  induction fuel with
  | zero =>
      intro p chunks hfuel hp _ _
      exact absurd hfuel (by omega)
  | succ n ih =>
      intro p chunks hfuel hp hne hmin
      rw [fromPageCountLoop_step _ _ _ _ _ _ _ _ hp]
      have hbe : (!chunks.isEmpty) = true := by
        cases chunks
        · exact absurd rfl hne
        · simp
      rw [hbe]
      set e := chunkEnd target maxp minp pageCount p true with he
      have hpe : p ≤ e := le_chunkEnd _ _ _ _ _ true ht hm hp
      have hep : e ≤ pageCount := chunkEnd_le _ _ _ _ _ true hp
      by_cases hcase : e = pageCount
      · rw [fromPageCountLoop_done _ _ _ _ _ _ _ _ (by omega)]
        refine ⟨[⟨p, e⟩], by simp, by simp, ?_⟩
        intro r hr
        simp at hr
        subst hr
        simp only [PageRange.pages]
        omega
      · have hlt : e < pageCount := lt_of_le_of_ne hep hcase
        have hrem : minp ≤ pageCount - e := by
          rw [he]
          exact chunkEnd_remaining target maxp minp pageCount p hp (he ▸ hlt)
        obtain ⟨rest, heq, hrne, hlast⟩ :=
          ih (e + 1) (chunks ++ [⟨p, e⟩]) (by omega) (by omega) (by simp)
            (by omega)
        rw [heq]
        refine ⟨⟨p, e⟩ :: rest, by simp, by simp, ?_⟩
        intro r hr
        cases rest with
        | nil => exact absurd rfl hrne
        | cons a l =>
            rw [List.getLast?_cons_cons] at hr
            exact hlast r hr

theorem fromPageCountLoop_congr (a a' b b' c c' pageCount : Nat)
    (h1 : 1 ≤ a) (h2 : 1 ≤ b) (h1' : 1 ≤ a') (h2' : 1 ≤ b')
    (ha : a = a') (hb : b = b') (hc : c = c') (p : Nat)
    (chunks : List PageRange) :
    fromPageCountLoop a b c pageCount h1 h2 p chunks =
      fromPageCountLoop a' b' c' pageCount h1' h2' p chunks := by
  subst ha hb hc
  rfl

/-- C2 (amended): the tail merge only fires once at least one chunk has
already been emitted.  Consequently (a) for
`page_count = target + min − 1` with valid parameters
`2 ≤ min ≤ target ≤ max`, the planner emits exactly as many chunks as the
naive greedy split — namely two, the would-be short tail becoming the
final chunk — and (b) only when the returned plan contains more than TWO
chunks is the final chunk guaranteed at least `min` pages (a two-chunk
plan may end in a chunk shorter than `min`). -/
theorem chunk_plan_tail_merge_amended (cfg : ChunkingCfg) (pageCount : Nat) :
    (2 ≤ cfg.min_pages_per_chunk →
      cfg.min_pages_per_chunk ≤ cfg.target_pages_per_chunk →
      cfg.target_pages_per_chunk ≤ cfg.max_pages_per_chunk →
      pageCount = cfg.target_pages_per_chunk + cfg.min_pages_per_chunk - 1 →
      (ChunkPlan.fromPageCount cfg pageCount).chunks.length =
          naiveGreedyChunkCount cfg.target_pages_per_chunk pageCount ∧
        (ChunkPlan.fromPageCount cfg pageCount).chunks.length = 2) ∧
    (3 ≤ (ChunkPlan.fromPageCount cfg pageCount).chunks.length →
      ∀ r, (ChunkPlan.fromPageCount cfg pageCount).chunks.getLast? = some r →
        min (max cfg.min_pages_per_chunk 1) (max cfg.max_pages_per_chunk 1) ≤
          r.pages) := by
  obtain ⟨strategy, t, m, mn⟩ := cfg
  simp only [ChunkPlan.fromPageCount]
  constructor
  · intro h2 hmt htm hpc
    subst hpc
    rw [fromPageCountLoop_congr (max t 1) t (max m 1) m
      (min (max mn 1) (max m 1)) mn (t + mn - 1) (Nat.le_max_right _ _)
      (Nat.le_max_right _ _) (by omega) (by omega) (by omega) (by omega)
      (by omega) 1 []]
    have he0 : chunkEnd t m mn (t + mn - 1) 1 false = t := by
      simp only [chunkEnd, show (false = true) = False from by simp, and_false,
        if_false]
      split_ifs <;> omega
    rw [fromPageCountLoop_step _ _ _ _ _ _ _ _ (by omega)]
    simp only [List.isEmpty_nil, Bool.not_true, List.nil_append]
    rw [he0]
    have he1 : chunkEnd t m mn (t + mn - 1) (t + 1) true = t + mn - 1 := by
      simp only [chunkEnd, show (true = true) = True from by simp, and_true]
      split_ifs <;> omega
    rw [fromPageCountLoop_step _ _ _ _ _ _ _ _ (by omega)]
    have hbe : (!([⟨1, t⟩] : List PageRange).isEmpty) = true := by simp
    rw [hbe, he1]
    rw [fromPageCountLoop_done _ _ _ _ _ _ _ _ (by omega)]
    constructor
    · show 2 = naiveGreedyChunkCount t (t + mn - 1)
      unfold naiveGreedyChunkCount
      exact (Nat.div_eq_of_lt_le (by omega) (by omega)).symm
    · rfl
  · intro h3 r hr
    set t1 := max t 1 with ht1
    set m1 := max m 1 with hm1
    set mn1 := min (max mn 1) (max m 1) with hmn1
    have ht : 1 ≤ t1 := Nat.le_max_right _ _
    have hm : 1 ≤ m1 := Nat.le_max_right _ _
    have hmm : mn1 ≤ m1 := min_le_right _ _
    by_cases hpc0 : pageCount = 0
    · rw [fromPageCountLoop_done _ _ _ _ _ _ _ _ (by omega)] at h3
      simp at h3
    · rw [fromPageCountLoop_step _ _ _ _ _ _ _ _ (by omega)] at h3 hr
      simp only [List.isEmpty_nil, Bool.not_true, List.nil_append] at h3 hr
      set e0 := chunkEnd t1 m1 mn1 pageCount 1 false with he0
      have h1e : 1 ≤ e0 := le_chunkEnd _ _ _ _ _ false ht hm (by omega)
      have hep : e0 ≤ pageCount := chunkEnd_le _ _ _ _ _ false (by omega)
      by_cases hA : pageCount < e0 + 1
      · rw [fromPageCountLoop_done _ _ _ _ _ _ _ _ hA] at h3
        simp at h3
      · by_cases hrem : mn1 ≤ pageCount + 1 - (e0 + 1)
        · obtain ⟨rest, heq, hrne, hlast⟩ :=
            fromPageCountLoop_last_min t1 m1 mn1 pageCount ht hm hmm
              (pageCount + 1) (e0 + 1) [⟨1, e0⟩] (by omega) (by omega)
              (by simp) hrem
          rw [heq, List.getLast?_append_of_ne_nil _ hrne] at hr
          exact hlast r hr
        · exfalso
          have hsmall : pageCount + 1 - (e0 + 1) < mn1 := by omega
          have he1 : chunkEnd t1 m1 mn1 pageCount (e0 + 1) true = pageCount :=
            chunkEnd_merge_small t1 m1 mn1 pageCount (e0 + 1) hm hmm
              (by omega) hsmall
          rw [fromPageCountLoop_step _ _ _ _ _ _ _ _ (by omega)] at h3
          have hbe : (!([⟨1, e0⟩] : List PageRange).isEmpty) = true := by simp
          rw [hbe, he1] at h3
          rw [fromPageCountLoop_done _ _ _ _ _ _ _ _ (by omega)] at h3
          simp at h3

/-- Witness for the amended C2: part (a) at the default configuration
`(target, max, min) = (40, 80, 10)` with `page_count = 49`, part (b) at the
same configuration with a 130-page document (four chunks). -/
theorem chunk_plan_tail_merge_amended_witness :
    ((ChunkPlan.fromPageCount ⟨"physical_split", 40, 80, 10⟩ 49).chunks.length =
        naiveGreedyChunkCount 40 49 ∧
      (ChunkPlan.fromPageCount ⟨"physical_split", 40, 80, 10⟩
        49).chunks.length = 2) ∧
    (∀ r, (ChunkPlan.fromPageCount ⟨"physical_split", 40, 80, 10⟩
        130).chunks.getLast? = some r →
      min (max 10 1) (max 80 1) ≤ r.pages) :=
  ⟨(chunk_plan_tail_merge_amended ⟨"physical_split", 40, 80, 10⟩ 49).1
      (by decide) (by decide) (by decide) (by decide),
    (chunk_plan_tail_merge_amended ⟨"physical_split", 40, 80, 10⟩ 130).2
      (by simp [ChunkPlan.fromPageCount, fromPageCountLoop, chunkEnd])⟩

/-- Counterexample to C3 as stated: with `target = 40`,
`max_pages_per_chunk = 40`, `min = 10` and a 89-page document, the tail
merge extends the second chunk to `[41, 89]` — 49 pages, exceeding
`max_pages_per_chunk = 40` — although the plan is not a single
full-document range. -/
theorem chunk_plan_range_length_counterexample :
    (ChunkPlan.fromPageCount ⟨"physical_split", 40, 40, 10⟩ 89).chunks =
      [⟨1, 40⟩, ⟨41, 89⟩] ∧
    (ChunkPlan.fromPageCount ⟨"physical_split", 40, 40, 10⟩
      89).chunks.length ≠ 1 ∧
    ∃ r ∈ (ChunkPlan.fromPageCount ⟨"physical_split", 40, 40, 10⟩ 89).chunks,
      40 < r.pages := by
  have h : (ChunkPlan.fromPageCount ⟨"physical_split", 40, 40, 10⟩ 89).chunks =
      [⟨1, 40⟩, ⟨41, 89⟩] := by
    simp [ChunkPlan.fromPageCount, fromPageCountLoop, chunkEnd]
  refine ⟨h, by rw [h]; norm_num, ⟨⟨41, 89⟩, by rw [h]; norm_num, ?_⟩⟩
  simp [PageRange.pages]

/-- C3 (amended): for every `page_count ≥ 1` and every configuration,
every range of the plan has at least one page; every range other than the
last has at most `max_pages_per_chunk` pages (after the code's clamping of
`max` to at least 1); and the last range has at most `max + min − 1`
pages — the tail merge may extend the final chunk past `max` by up to
`min − 1` pages, so the bound `max` does not hold for the final range of a
multi-chunk plan, not only for single-range plans. -/
theorem chunk_plan_range_lengths (cfg : ChunkingCfg) (pageCount : Nat)
    (hpc : 1 ≤ pageCount) :
    (∀ r ∈ (ChunkPlan.fromPageCount cfg pageCount).chunks, 1 ≤ r.pages) ∧
    (∀ r ∈ (ChunkPlan.fromPageCount cfg pageCount).chunks.dropLast,
      r.pages ≤ max cfg.max_pages_per_chunk 1) ∧
    (∀ r, (ChunkPlan.fromPageCount cfg pageCount).chunks.getLast? = some r →
      r.pages ≤ max cfg.max_pages_per_chunk 1 +
        min (max cfg.min_pages_per_chunk 1) (max cfg.max_pages_per_chunk 1)
        - 1) := by
  obtain ⟨rest, heq, hcov, hdrop, hlast⟩ :=
    fromPageCountLoop_invariant (max cfg.target_pages_per_chunk 1)
      (max cfg.max_pages_per_chunk 1)
      (min (max cfg.min_pages_per_chunk 1) (max cfg.max_pages_per_chunk 1))
      pageCount (Nat.le_max_right _ _) (Nat.le_max_right _ _)
      (le_min (Nat.le_max_right _ _) (Nat.le_max_right _ _))
      (pageCount + 1) 1 [] (by omega) (by omega)
  have hchunks : (ChunkPlan.fromPageCount cfg pageCount).chunks = rest := by
    simpa [ChunkPlan.fromPageCount] using heq
  rw [hchunks]
  refine ⟨?_, hdrop, hlast⟩
  intro r hr
  have := coversFrom_mem_le pageCount rest 1 hcov r hr
  simp only [PageRange.pages]
  omega

/-- Witness for the amended C3 at configuration `(40, 40, 10)` on an
89-page document, where the final chunk exceeds `max`. -/
theorem chunk_plan_range_lengths_witness :
    (1 : Nat) ≤ 89 ∧
    ((∀ r ∈ (ChunkPlan.fromPageCount ⟨"physical_split", 40, 40, 10⟩ 89).chunks,
      1 ≤ r.pages) ∧
    (∀ r ∈ (ChunkPlan.fromPageCount ⟨"physical_split", 40, 40, 10⟩
        89).chunks.dropLast, r.pages ≤ max 40 1) ∧
    (∀ r, (ChunkPlan.fromPageCount ⟨"physical_split", 40, 40, 10⟩
        89).chunks.getLast? = some r →
      r.pages ≤ max 40 1 + min (max 10 1) (max 40 1) - 1)) :=
  ⟨by decide, chunk_plan_range_lengths ⟨"physical_split", 40, 40, 10⟩ 89
    (by decide)⟩

/-- `QualityTier` (`src/policy.rs` lines 4-9). -/
inductive QualityTier where
  | HighText
  | MixedText
  | Scan
deriving DecidableEq, Repr

/-- `PolicyDecision` (`src/policy.rs` lines 11-16). -/
structure PolicyDecision where
  tier : QualityTier
  chosen_engine : String
  do_ocr : Bool
deriving DecidableEq, Repr

/-- `ProbeSampleStats` (`src/probe.rs` lines 19-25).  The `f32` fields
`garbage_ratio` / `whitespace_ratio` are modelled as the rationals
`garbage_r` / `whitespace_r`: the code only compares these values, it never
computes with them, and all concrete thresholds and samples used below are
far enough apart that `f32` rounding cannot change any comparison. -/
structure ProbeSampleStats where
  sampled_pages : Nat
  avg_chars_per_page : Nat
  garbage_r : ℚ
  whitespace_r : ℚ
deriving DecidableEq, Repr

/-- `ProbeInput` (`src/probe.rs` lines 12-17). -/
structure ProbeInput where
  path : String
  file_bytes : Nat
  page_count : Nat
deriving DecidableEq, Repr

/-- `ProbeResult` (`src/probe.rs` lines 6-10). -/
structure ProbeResult where
  input : ProbeInput
  sample : ProbeSampleStats
deriving DecidableEq, Repr

/-- The `[classification]` table (`Classification` in `src/config.rs`
lines 148-157); the `f32` thresholds `max_garbage_ratio_for_high_text` /
`max_whitespace_ratio_for_high_text` are modelled as the rationals
`max_garbage_r_for_high_text` / `max_whitespace_r_for_high_text`. -/
structure ClassificationCfg where
  sample_pages : Nat
  min_avg_chars_per_page_for_high_text : Nat
  max_avg_chars_per_page_for_scan : Nat
  max_garbage_r_for_high_text : ℚ
  max_whitespace_r_for_high_text : ℚ
  forced_tier : String
deriving DecidableEq, Repr

/-- The `[engine]` table (`Engine` in `src/config.rs` lines 198-203). -/
structure EngineCfg where
  high_text_engine : String
  mixed_text_engine : String
  scan_engine : String
deriving DecidableEq, Repr

/-- The slice of `Config` read by `policy::decide`: the `[classification]`
and `[engine]` tables plus `docling.pipeline.do_ocr`. -/
structure PolicyCfg where
  classification : ClassificationCfg
  engine : EngineCfg
  docling_pipeline_do_ocr : Bool
deriving DecidableEq, Repr

/-- `policy::forced` (`src/policy.rs` lines 57-82). -/
def Policy.forced (cfg : PolicyCfg) : PolicyDecision :=
  let tier : QualityTier :=
    if cfg.classification.forced_tier = "HIGH_TEXT" then .HighText
    else if cfg.classification.forced_tier = "MIXED_TEXT" then .MixedText
    else if cfg.classification.forced_tier = "SCAN" then .Scan
    else .MixedText
  match tier with
  | .HighText => ⟨.HighText, cfg.engine.high_text_engine, false⟩
  | .MixedText =>
      ⟨.MixedText, cfg.engine.mixed_text_engine, cfg.docling_pipeline_do_ocr⟩
  | .Scan => ⟨.Scan, cfg.engine.scan_engine, true⟩

/-- `policy::decide` (`src/policy.rs` lines 18-55). -/
def Policy.decide (cfg : PolicyCfg) (probe : ProbeResult) : PolicyDecision :=
  if cfg.classification.forced_tier ≠ "AUTO" then Policy.forced cfg
  else
    let avg := probe.sample.avg_chars_per_page
    let garbage := probe.sample.garbage_r
    let ws := probe.sample.whitespace_r
    let tier : QualityTier :=
      if cfg.classification.min_avg_chars_per_page_for_high_text ≤ avg ∧
          garbage ≤ cfg.classification.max_garbage_r_for_high_text ∧
          ws ≤ cfg.classification.max_whitespace_r_for_high_text then
        .HighText
      else if avg ≤ cfg.classification.max_avg_chars_per_page_for_scan then
        .Scan
      else .MixedText
    match tier with
    | .HighText => ⟨.HighText, cfg.engine.high_text_engine, false⟩
    | .MixedText =>
        ⟨.MixedText, cfg.engine.mixed_text_engine, cfg.docling_pipeline_do_ocr⟩
    | .Scan => ⟨.Scan, cfg.engine.scan_engine, true⟩

/-- The `Default` values of the `[classification]` table (`src/config.rs`
lines 158-170). -/
def defaultClassification : ClassificationCfg :=
  { sample_pages := 12
    min_avg_chars_per_page_for_high_text := 1200
    max_avg_chars_per_page_for_scan := 80
    max_garbage_r_for_high_text := (0.02 : ℚ)
    max_whitespace_r_for_high_text := (0.55 : ℚ)
    forced_tier := "AUTO" }

/-- The `Default` values of the `[engine]` table (`src/config.rs`
lines 204-212). -/
def defaultEngineCfg : EngineCfg := ⟨"native_text", "docling", "docling"⟩

/-- The default policy slice of `Config`: default `[classification]` and
`[engine]` plus the default `docling.pipeline.do_ocr = false`
(`src/config.rs` line 315). -/
def defaultPolicyCfg : PolicyCfg := ⟨defaultClassification, defaultEngineCfg, false⟩

/-- C4: with `forced_tier = "AUTO"`, `decide` classifies by the fixed
priority order — `HighText` iff the average-characters, garbage and
whitespace thresholds all pass, otherwise `Scan` iff the average is at most
the scan threshold, otherwise `MixedText` — with `do_ocr = false` for
`HighText`, the configured engine OCR flag for `MixedText` and `true` for
`Scan`; and under default thresholds the stats `(avg 5000, garbage 0,
whitespace 0.2)` classify as `HighText` without OCR while `(avg 10,
garbage 0, whitespace 0.1)` classify as `Scan` with OCR. -/
theorem policy_decide_auto_priority (cfg : PolicyCfg) (probe : ProbeResult)
    (h : cfg.classification.forced_tier = "AUTO") :
    (((Policy.decide cfg probe).tier = QualityTier.HighText) ↔
      (cfg.classification.min_avg_chars_per_page_for_high_text ≤
          probe.sample.avg_chars_per_page ∧
        probe.sample.garbage_r ≤
          cfg.classification.max_garbage_r_for_high_text ∧
        probe.sample.whitespace_r ≤
          cfg.classification.max_whitespace_r_for_high_text)) ∧
    (((Policy.decide cfg probe).tier = QualityTier.Scan) ↔
      (¬ (cfg.classification.min_avg_chars_per_page_for_high_text ≤
            probe.sample.avg_chars_per_page ∧
          probe.sample.garbage_r ≤
            cfg.classification.max_garbage_r_for_high_text ∧
          probe.sample.whitespace_r ≤
            cfg.classification.max_whitespace_r_for_high_text) ∧
        probe.sample.avg_chars_per_page ≤
          cfg.classification.max_avg_chars_per_page_for_scan)) ∧
    (((Policy.decide cfg probe).tier = QualityTier.MixedText) ↔
      (¬ (cfg.classification.min_avg_chars_per_page_for_high_text ≤
            probe.sample.avg_chars_per_page ∧
          probe.sample.garbage_r ≤
            cfg.classification.max_garbage_r_for_high_text ∧
          probe.sample.whitespace_r ≤
            cfg.classification.max_whitespace_r_for_high_text) ∧
        ¬ probe.sample.avg_chars_per_page ≤
          cfg.classification.max_avg_chars_per_page_for_scan)) ∧
    ((Policy.decide cfg probe).tier = QualityTier.HighText →
      (Policy.decide cfg probe).do_ocr = false) ∧
    ((Policy.decide cfg probe).tier = QualityTier.MixedText →
      (Policy.decide cfg probe).do_ocr = cfg.docling_pipeline_do_ocr) ∧
    ((Policy.decide cfg probe).tier = QualityTier.Scan →
      (Policy.decide cfg probe).do_ocr = true) ∧
    (Policy.decide defaultPolicyCfg
        ⟨⟨"b.pdf", 1, 300⟩, ⟨12, 5000, 0, (0.2 : ℚ)⟩⟩ =
      ⟨QualityTier.HighText, "native_text", false⟩) ∧
    (Policy.decide defaultPolicyCfg
        ⟨⟨"c.pdf", 1, 50⟩, ⟨12, 10, 0, (0.1 : ℚ)⟩⟩ =
      ⟨QualityTier.Scan, "docling", true⟩) := by
  refine ⟨?_, ?_, ?_, ?_, ?_, ?_,
    by norm_num [Policy.decide, defaultPolicyCfg, defaultClassification,
      defaultEngineCfg],
    by norm_num [Policy.decide, defaultPolicyCfg, defaultClassification,
      defaultEngineCfg]⟩ <;>
    simp only [Policy.decide, h, ne_eq, not_true_eq_false, if_false] <;>
    split_ifs <;> simp_all

/-- Witness for C4 at the default configuration and the high-text sample
statistics. -/
theorem policy_decide_auto_priority_witness :
    defaultPolicyCfg.classification.forced_tier = "AUTO" ∧
    ((Policy.decide defaultPolicyCfg
        ⟨⟨"b.pdf", 1, 300⟩, ⟨12, 5000, 0, (0.2 : ℚ)⟩⟩).tier =
      QualityTier.HighText ↔
      (defaultPolicyCfg.classification.min_avg_chars_per_page_for_high_text ≤
          5000 ∧
        (0 : ℚ) ≤ defaultPolicyCfg.classification.max_garbage_r_for_high_text ∧
        (0.2 : ℚ) ≤
          defaultPolicyCfg.classification.max_whitespace_r_for_high_text)) :=
  ⟨rfl,
    (policy_decide_auto_priority defaultPolicyCfg
      ⟨⟨"b.pdf", 1, 300⟩, ⟨12, 5000, 0, (0.2 : ℚ)⟩⟩ rfl).1⟩

/-- Rust `char::is_whitespace` — the Unicode `White_Space` property — as
used by `str::trim` and `str::trim_end`. -/
def rustIsWhitespace (c : Char) : Bool :=
  decide (c.toNat = 0x9 ∨ c.toNat = 0xA ∨ c.toNat = 0xB ∨ c.toNat = 0xC ∨
    c.toNat = 0xD ∨ c.toNat = 0x20 ∨ c.toNat = 0x85 ∨ c.toNat = 0xA0 ∨
    c.toNat = 0x1680 ∨ (0x2000 ≤ c.toNat ∧ c.toNat ≤ 0x200A) ∨
    c.toNat = 0x2028 ∨ c.toNat = 0x2029 ∨ c.toNat = 0x202F ∨
    c.toNat = 0x205F ∨ c.toNat = 0x3000)

/-- Split text at every `'\n'`; the result always has exactly one more
piece than the text has newlines (the raw underlying split of Rust
`str::lines`). -/
def splitLinesRaw : List Char → List (List Char)
  | [] => [[]]
  | c :: rest =>
      if c = '\n' then [] :: splitLinesRaw rest
      else
        match splitLinesRaw rest with
        | l :: ls => (c :: l) :: ls
        | [] => [[c]]

/-- Strip one trailing `'\r'` (the carriage return of an `"\r\n"` line
terminator). -/
def dropTrailCR (l : List Char) : List Char :=
  if l.getLast? = some '\r' then l.dropLast else l

/-- Finish Rust `str::lines`: every `'\n'`-terminated piece loses one
trailing `'\r'`, and the final empty piece produced by a trailing newline
is dropped. -/
def processPieces : List (List Char) → List (List Char)
  | [] => []
  | [piece] => if piece = [] then [] else [piece]
  | piece :: rest => dropTrailCR piece :: processPieces rest

/-- Rust `str::lines` (`s.lines()` throughout `src/postprocess.rs`). -/
def rustLines (s : List Char) : List (List Char) :=
  processPieces (splitLinesRaw s)

/-- `Vec::join("\n")` over a list of lines. -/
def joinLines : List (List Char) → List Char
  | [] => []
  | [l] => l
  | l :: ls => l ++ '\n' :: joinLines ls

/-- `parts.join("\n\n---\n\n")` (`src/postprocess.rs` line 8). -/
def joinParts : List (List Char) → List Char
  | [] => []
  | [p] => p
  | p :: ps =>
      p ++ ('\n' :: '\n' :: '-' :: '-' :: '-' :: '\n' :: '\n' :: joinParts ps)

/-- `str::replace("\r\n", "\n")` — non-overlapping, left to right
(`src/postprocess.rs` line 11). -/
def replaceCRLF : List Char → List Char
  | [] => []
  | [c] => [c]
  | c1 :: c2 :: rest =>
      if c1 = '\r' ∧ c2 = '\n' then '\n' :: replaceCRLF rest
      else c1 :: replaceCRLF (c2 :: rest)

/-- `str::trim_end` on one line. -/
def trimEnd (l : List Char) : List Char :=
  (l.reverse.dropWhile rustIsWhitespace).reverse

/-- `str::trim` on one line (trim both ends). -/
def trimBoth (l : List Char) : List Char :=
  (trimEnd l).dropWhile rustIsWhitespace

/-- Rust `str::len` — the UTF-8 byte length of a line. -/
def utf8Len (l : List Char) : Nat := (l.map Char.utf8Size).sum

/-- The character-keep predicate of `sanitize_control_chars`
(`src/postprocess.rs` lines 51-63): structural whitespace is always kept,
an ASCII character is kept unless its code point is a configured code
(the mask is only populated for code points below 128), and non-ASCII
characters are always kept. -/
def keepChar (codes : List Nat) (ch : Char) : Bool :=
  if ch = '\n' ∨ ch = '\r' ∨ ch = '\t' then true
  else if ch.toNat < 128 then !(codes.contains ch.toNat)
  else true

/-- `sanitize_control_chars` (`src/postprocess.rs` lines 39-65); `codes`
models the configured `&[u8]` slice as a list of byte values. -/
def sanitizeControlChars (s : List Char) (codes : List Nat) : List Char :=
  if codes.isEmpty then s else s.filter (keepChar codes)

/-- The `[postprocess]` table (`Postprocess` in `src/config.rs`
lines 400-425), restricted to the fields `merge_markdown` reads.  The
field `control_chars_to_sanitize` is read at `src/postprocess.rs` line 18
but its declaration is missing from the given `src/config.rs`; it is
modelled from that use site and the spec ("remove a configured set of
non-printable code points") as a list of byte values. -/
structure PostprocessCfg where
  normalize_unicode : Bool
  normalize_newlines : Bool
  trim_trailing_whitespace : Bool
  remove_repeated_lines : Bool
  repeated_line_min_occurrences : Nat
  repeated_line_max_length : Nat
  remove_by_regex : Bool
  control_chars_to_sanitize : List Nat

/-- A line is counted by `remove_repeated_lines` (`src/postprocess.rs`
lines 71-80) when its trimmed content is nonempty and at most `maxlen`
bytes long. -/
def eligibleLine (maxlen : Nat) (l : List Char) : Bool :=
  !(trimBoth l).isEmpty && decide (utf8Len (trimBoth l) ≤ maxlen)

/-- The occurrence count `counts[t]` of `remove_repeated_lines`: the
number of counted lines whose trimmed content equals `t`.  (An ineligible
trimmed line is never a key of the map, so its count is zero — which this
formula also yields, since equal content implies equal byte length.) -/
def repeatedCount (ls : List (List Char)) (maxlen : Nat) (t : List Char) :
    Nat :=
  ls.countP (fun l => eligibleLine maxlen l && (trimBoth l == t))

/-- `remove_repeated_lines` (`src/postprocess.rs` lines 67-96). -/
def removeRepeatedLines (minOcc maxlen : Nat) (s : List Char) : List Char :=
  joinLines ((rustLines s).filter (fun l =>
    (trimBoth l).isEmpty ||
      decide (repeatedCount (rustLines s) maxlen (trimBoth l) < minOcc)))

/-- `remove_by_regex` (`src/postprocess.rs` lines 98-121), with the
compiled regex set of the external `regex` crate abstracted into the
predicate `matcher` applied to the trimmed line (`r.is_match(line.trim())`
for any of the configured patterns). -/
def removeByRegex (matcher : List Char → Bool) (s : List Char) : List Char :=
  joinLines ((rustLines s).filter (fun l => !matcher (trimBoth l)))

/-- The trim-trailing-whitespace stage of `merge_markdown`
(`src/postprocess.rs` lines 20-26). -/
def trimStage (s : List Char) : List Char :=
  joinLines ((rustLines s).map trimEnd)

/-- `merge_markdown` (`src/postprocess.rs` lines 7-37), parameterized by
the external NFKC normalizer (`unicode_normalization` crate) and the
external regex matcher (`regex` crate). -/
def mergeMarkdown (nfkc : List Char → List Char)
    (matcher : List Char → Bool) (cfg : PostprocessCfg)
    (parts : List (List Char)) : List Char :=
  let m0 := joinParts parts
  let m1 := if cfg.normalize_newlines then replaceCRLF m0 else m0
  let m2 := if cfg.normalize_unicode then nfkc m1 else m1
  let m3 := sanitizeControlChars m2 cfg.control_chars_to_sanitize
  let m4 := if cfg.trim_trailing_whitespace then trimStage m3 else m3
  let m5 :=
    if cfg.remove_repeated_lines then
      removeRepeatedLines cfg.repeated_line_min_occurrences
        cfg.repeated_line_max_length m4
    else m4
  if cfg.remove_by_regex then removeByRegex matcher m5 else m5

/-- C6: control-character sanitization preserves every occurrence of
newline, carriage return and tab — for every input string and every
configured code list, including lists containing the code points of
`'\n'`, `'\r'` or `'\t'`. -/
theorem sanitize_preserves_structural_whitespace (s : List Char)
    (codes : List Nat) :
    (sanitizeControlChars s codes).filter
        (fun c => decide (c = '\n' ∨ c = '\r' ∨ c = '\t')) =
      s.filter (fun c => decide (c = '\n' ∨ c = '\r' ∨ c = '\t')) := by
  unfold sanitizeControlChars
  split_ifs with h
  · rfl
  · rw [List.filter_filter]
    apply List.filter_congr
    intro c _
    by_cases hc : c = '\n' ∨ c = '\r' ∨ c = '\t'
    · simp [hc, keepChar]
    · simp [hc]

/-- C10: sanitization only ever removes ASCII characters — configured
codes of value 128 or greater have no effect, every input character with
code point 128 or greater passes through unchanged, and the empty code
list is the identity. -/
theorem sanitize_only_affects_ascii (s : List Char) (codes : List Nat) :
    sanitizeControlChars s codes =
        sanitizeControlChars s (codes.filter (fun k => decide (k < 128))) ∧
    ((sanitizeControlChars s codes).filter
        (fun c => decide (128 ≤ c.toNat)) =
      s.filter (fun c => decide (128 ≤ c.toNat))) ∧
    sanitizeControlChars s [] = s := by
  refine ⟨?_, ?_, rfl⟩
  · unfold sanitizeControlChars
    by_cases h : codes.isEmpty
    · have : codes = [] := List.isEmpty_iff.mp h
      subst this
      simp
    · rw [if_neg h]
      by_cases h2 : (codes.filter (fun k => decide (k < 128))).isEmpty
      · rw [if_pos h2]
        have hnone : ∀ k ∈ codes, ¬ k < 128 := by
          intro k hk hlt
          have : k ∈ codes.filter (fun k => decide (k < 128)) :=
            List.mem_filter.mpr ⟨hk, by simpa using hlt⟩
          rw [List.isEmpty_iff.mp h2] at this
          simp at this
        have : ∀ c ∈ s, keepChar codes c = true := by
          intro c _
          unfold keepChar
          split_ifs with h3 h4
          · rfl
          · simp only [Bool.not_eq_true']
            by_cases hmem : codes.contains c.toNat
            · exact absurd (hnone c.toNat (by simpa using hmem) h4) (by simp)
            · simpa using hmem
          · rfl
        exact List.filter_eq_self.mpr this
      · rw [if_neg h2]
        apply List.filter_congr
        intro c _
        unfold keepChar
        split_ifs with h3 h4
        · rfl
        · have hcont : (codes.filter (fun k => decide (k < 128))).contains
              c.toNat = codes.contains c.toNat := by
            simp only [List.contains, List.elem_eq_mem, decide_eq_decide,
              List.mem_filter, decide_eq_true_eq]
            exact ⟨fun x => x.1, fun x => ⟨x, h4⟩⟩
          rw [hcont]
        · rfl
  · unfold sanitizeControlChars
    split_ifs with h
    · rfl
    · rw [List.filter_filter]
      apply List.filter_congr
      intro c _
      by_cases hc : 128 ≤ c.toNat
      · have hk : keepChar codes c = true := by
          unfold keepChar
          split_ifs with h3 h4
          · rfl
          · omega
          · rfl
        rw [hk]
        simp [hc]
      · simp [hc]

theorem splitLinesRaw_ne_nil (s : List Char) : splitLinesRaw s ≠ [] := by
  induction s with
  | nil => simp [splitLinesRaw]
  | cons c rest ih =>
      simp only [splitLinesRaw]
      split_ifs
      · simp
      · cases hsplit : splitLinesRaw rest with
        | nil => simp
        | cons l ls => simp

theorem joinLines_splitLinesRaw (s : List Char) :
    joinLines (splitLinesRaw s) = s := by
  induction s with
  | nil => simp [splitLinesRaw, joinLines]
  | cons c rest ih =>
      simp only [splitLinesRaw]
      split_ifs with hc
      · subst hc
        cases hsplit : splitLinesRaw rest with
        | nil => exact absurd hsplit (splitLinesRaw_ne_nil rest)
        | cons l ls =>
            rw [hsplit] at ih
            simp only [joinLines, List.nil_append]
            rw [ih]
      · cases hsplit : splitLinesRaw rest with
        | nil => exact absurd hsplit (splitLinesRaw_ne_nil rest)
        | cons l ls =>
            rw [hsplit] at ih
            cases ls with
            | nil =>
                simp only [joinLines] at ih ⊢
                rw [ih]
            | cons l2 ls2 =>
                simp only [joinLines] at ih ⊢
                rw [List.cons_append, ih]

theorem splitLinesRaw_no_newline (s : List Char) :
    ∀ l ∈ splitLinesRaw s, '\n' ∉ l := by
  induction s with
  | nil =>
      intro l hl
      simp [splitLinesRaw] at hl
      simp [hl]
  | cons c rest ih =>
      intro l hl
      simp only [splitLinesRaw] at hl
      split_ifs at hl with hc
      · rcases List.mem_cons.mp hl with h1 | h1
        · simp [h1]
        · exact ih l h1
      · cases hsplit : splitLinesRaw rest with
        | nil => exact absurd hsplit (splitLinesRaw_ne_nil rest)
        | cons p ps =>
            rw [hsplit] at hl
            rcases List.mem_cons.mp hl with h1 | h1
            · subst h1
              intro hmem
              rcases List.mem_cons.mp hmem with h2 | h2
              · exact hc h2.symm
              · exact ih p (by rw [hsplit]; exact List.mem_cons_self p ps) h2
            · exact ih l (by rw [hsplit]; exact List.mem_cons_of_mem p h1)

theorem splitLinesRaw_mem_subset (s : List Char) :
    ∀ l ∈ splitLinesRaw s, ∀ c ∈ l, c ∈ s := by
  induction s with
  | nil =>
      intro l hl
      simp [splitLinesRaw] at hl
      simp [hl]
  | cons a rest ih =>
      intro l hl c hcl
      simp only [splitLinesRaw] at hl
      split_ifs at hl with hc
      · rcases List.mem_cons.mp hl with h1 | h1
        · simp [h1] at hcl
        · exact List.mem_cons_of_mem a (ih l h1 c hcl)
      · cases hsplit : splitLinesRaw rest with
        | nil => exact absurd hsplit (splitLinesRaw_ne_nil rest)
        | cons p ps =>
            rw [hsplit] at hl
            rcases List.mem_cons.mp hl with h1 | h1
            · subst h1
              rcases List.mem_cons.mp hcl with h2 | h2
              · simp [h2]
              · exact List.mem_cons_of_mem a
                  (ih p (by rw [hsplit]; exact List.mem_cons_self p ps) c h2)
            · exact List.mem_cons_of_mem a
                (ih l (by rw [hsplit]; exact List.mem_cons_of_mem p h1) c hcl)

theorem splitLinesRaw_of_no_newline (l : List Char) (h : '\n' ∉ l) :
    splitLinesRaw l = [l] := by
  induction l with
  | nil => simp [splitLinesRaw]
  | cons c rest ih =>
      have hc : c ≠ '\n' := fun hx => h (hx ▸ List.mem_cons_self c rest)
      have hrest : '\n' ∉ rest := fun hx => h (List.mem_cons_of_mem c hx)
      simp only [splitLinesRaw, if_neg hc, ih hrest]

theorem splitLinesRaw_append_newline (l t : List Char) (h : '\n' ∉ l) :
    splitLinesRaw (l ++ '\n' :: t) = l :: splitLinesRaw t := by
  induction l with
  | nil => simp [splitLinesRaw]
  | cons c rest ih =>
      have hc : c ≠ '\n' := fun hx => h (hx ▸ List.mem_cons_self c rest)
      have hrest : '\n' ∉ rest := fun hx => h (List.mem_cons_of_mem c hx)
      simp only [List.cons_append, splitLinesRaw, if_neg hc]
      have ih2 : splitLinesRaw (rest.append ('\n' :: t)) =
          rest :: splitLinesRaw t := ih hrest
      rw [ih2]

theorem splitLinesRaw_joinLines (ls : List (List Char)) (hne : ls ≠ [])
    (h : ∀ l ∈ ls, '\n' ∉ l) :
    splitLinesRaw (joinLines ls) = ls := by
  induction ls with
  | nil => exact absurd rfl hne
  | cons l rest ih =>
      cases rest with
      | nil =>
          simp only [joinLines]
          exact splitLinesRaw_of_no_newline l (h l (List.mem_cons_self _ _))
      | cons l2 rest2 =>
          simp only [joinLines]
          rw [splitLinesRaw_append_newline l _ (h l (List.mem_cons_self _ _))]
          rw [ih (by simp) (fun x hx => h x (List.mem_cons_of_mem l hx))]

theorem rustLines_joinLines (ls : List (List Char))
    (h : ∀ l ∈ ls, '\n' ∉ l) :
    rustLines (joinLines ls) = processPieces ls := by
  cases ls with
  | nil => simp [joinLines, rustLines, splitLinesRaw, processPieces]
  | cons l rest =>
      unfold rustLines
      rw [splitLinesRaw_joinLines (l :: rest) (by simp) h]

theorem processPieces_mem (ls : List (List Char)) :
    ∀ l ∈ processPieces ls, ∃ p ∈ ls, l = p ∨ l = dropTrailCR p := by
  induction ls with
  | nil =>
      intro l hl
      simp [processPieces] at hl
  | cons p rest ih =>
      intro l hl
      cases rest with
      | nil =>
          simp only [processPieces] at hl
          split_ifs at hl
          · simp at hl
          · simp at hl
            exact ⟨p, List.mem_cons_self _ _, Or.inl hl⟩
      | cons p2 rest2 =>
          simp only [processPieces] at hl
          rcases List.mem_cons.mp hl with h1 | h1
          · exact ⟨p, List.mem_cons_self _ _, Or.inr h1⟩
          · obtain ⟨q, hq, hor⟩ := ih l h1
            exact ⟨q, List.mem_cons_of_mem p hq, hor⟩

theorem dropTrailCR_subset (l : List Char) : ∀ c ∈ dropTrailCR l, c ∈ l := by
  unfold dropTrailCR
  split_ifs with h
  · exact fun c hc => List.dropLast_subset l hc
  · exact fun c hc => hc

theorem dropTrailCR_no_newline (l : List Char) (h : '\n' ∉ l) :
    '\n' ∉ dropTrailCR l := fun hx => h (dropTrailCR_subset l '\n' hx)

theorem rustLines_no_newline (s : List Char) :
    ∀ l ∈ rustLines s, '\n' ∉ l := by
  intro l hl
  obtain ⟨p, hp, hor⟩ := processPieces_mem (splitLinesRaw s) l hl
  have hnp := splitLinesRaw_no_newline s p hp
  rcases hor with h1 | h1
  · exact h1 ▸ hnp
  · exact h1 ▸ dropTrailCR_no_newline p hnp

theorem rustLines_mem_subset (s : List Char) :
    ∀ l ∈ rustLines s, ∀ c ∈ l, c ∈ s := by
  intro l hl c hc
  obtain ⟨p, hp, hor⟩ := processPieces_mem (splitLinesRaw s) l hl
  have hsub := splitLinesRaw_mem_subset s p hp
  rcases hor with h1 | h1
  · exact hsub c (h1 ▸ hc)
  · exact hsub c (dropTrailCR_subset p c (h1 ▸ hc))

theorem dropWhile_idem {α : Type} (p : α → Bool) (l : List α) :
    (l.dropWhile p).dropWhile p = l.dropWhile p := by
  cases h : l.dropWhile p with
  | nil => rfl
  | cons x xs =>
      have hx : p x = false := by
        have hh := List.head?_dropWhile_not p l
        rw [h] at hh
        simpa using hh
      rw [List.dropWhile_cons_of_neg (by simp [hx])]

theorem trimEnd_subset (l : List Char) : ∀ c ∈ trimEnd l, c ∈ l := by
  intro c hc
  unfold trimEnd at hc
  rw [List.mem_reverse] at hc
  exact List.mem_reverse.mp
    ((List.dropWhile_sublist rustIsWhitespace).subset hc)

theorem trimEnd_idem (l : List Char) : trimEnd (trimEnd l) = trimEnd l := by
  unfold trimEnd
  rw [List.reverse_reverse, dropWhile_idem]

theorem trimEnd_getLast_not_ws (l : List Char) (c : Char)
    (h : (trimEnd l).getLast? = some c) : rustIsWhitespace c = false := by
  unfold trimEnd at h
  rw [List.getLast?_reverse] at h
  have hh := List.head?_dropWhile_not rustIsWhitespace l.reverse
  rw [h] at hh
  simpa using hh

theorem dropTrailCR_of_trimEnd_fixed (l : List Char) (h : trimEnd l = l) :
    dropTrailCR l = l := by
  unfold dropTrailCR
  split_ifs with hl
  · exact absurd (trimEnd_getLast_not_ws l '\r' (by rw [h]; exact hl))
      (by decide)
  · rfl

theorem trimEnd_dropTrailCR (l : List Char) :
    trimEnd (dropTrailCR l) = trimEnd l := by
  unfold dropTrailCR
  split_ifs with h
  · have heq : l.dropLast ++ ['\r'] = l :=
      List.dropLast_append_getLast? '\r' h
    conv_rhs => rw [← heq]
    unfold trimEnd
    rw [List.reverse_append]
    simp only [List.reverse_cons, List.reverse_nil, List.nil_append,
      List.singleton_append]
    rw [List.dropWhile_cons_of_pos (by decide)]
  · rfl

theorem trimBoth_dropTrailCR (l : List Char) :
    trimBoth (dropTrailCR l) = trimBoth l := by
  unfold trimBoth
  rw [trimEnd_dropTrailCR]

theorem eligibleLine_dropTrailCR (m : Nat) (l : List Char) :
    eligibleLine m (dropTrailCR l) = eligibleLine m l := by
  unfold eligibleLine
  rw [trimBoth_dropTrailCR]

theorem splitLinesRaw_getLast_ne_nil :
    ∀ (s : List Char), s ≠ [] → s.getLast? ≠ some '\n' →
      ∀ lp, (splitLinesRaw s).getLast? = some lp → lp ≠ [] := by
  intro s
  induction s with
  | nil =>
      intro h
      exact absurd rfl h
  | cons c rest ih =>
      intro _ hnl lp hlp
      by_cases hrest : rest = []
      · subst hrest
        have hc : c ≠ '\n' := by
          intro h
          exact hnl (by simp [h])
        simp only [splitLinesRaw, if_neg hc] at hlp
        simp at hlp
        subst hlp
        simp
      · obtain ⟨r, rr, rfl⟩ := List.exists_cons_of_ne_nil hrest
        have hnl2 : (r :: rr).getLast? ≠ some '\n' := by
          rwa [List.getLast?_cons_cons] at hnl
        by_cases hc : c = '\n'
        · subst hc
          rw [splitLinesRaw, if_pos rfl] at hlp
          cases hsp : splitLinesRaw (r :: rr) with
          | nil => exact absurd hsp (splitLinesRaw_ne_nil _)
          | cons p ps =>
              rw [hsp, List.getLast?_cons_cons] at hlp
              exact ih (by simp) hnl2 lp (by rw [hsp]; exact hlp)
        · rw [splitLinesRaw, if_neg hc] at hlp
          cases hsp : splitLinesRaw (r :: rr) with
          | nil => exact absurd hsp (splitLinesRaw_ne_nil _)
          | cons p ps =>
              rw [hsp] at hlp
              change ((c :: p) :: ps).getLast? = some lp at hlp
              cases hps : ps with
              | nil =>
                  subst hps
                  simp at hlp
                  subst hlp
                  simp
              | cons q qs =>
                  subst hps
                  rw [List.getLast?_cons_cons] at hlp
                  exact ih (by simp) hnl2 lp
                    (by rw [hsp, List.getLast?_cons_cons]; exact hlp)

theorem processPieces_eq_self :
    ∀ (ls : List (List Char)), (∀ l ∈ ls, l.getLast? ≠ some '\r') →
      (∀ lp, ls.getLast? = some lp → lp ≠ []) → processPieces ls = ls := by
  intro ls
  induction ls with
  | nil =>
      intro _ _
      rfl
  | cons p rest ih =>
      intro hcr hlast
      cases rest with
      | nil =>
          simp only [processPieces]
          rw [if_neg (hlast p (by simp))]
      | cons q qs =>
          simp only [processPieces]
          have h1 : dropTrailCR p = p := by
            unfold dropTrailCR
            rw [if_neg (hcr p (by simp))]
          rw [h1, ih (fun l hl => hcr l (List.mem_cons_of_mem p hl))
            (fun lp hlp => hlast lp (by rwa [List.getLast?_cons_cons]))]

theorem joinLines_rustLines (s : List Char) (hcr : '\r' ∉ s)
    (hnl : s.getLast? ≠ some '\n') : joinLines (rustLines s) = s := by
  by_cases hs : s = []
  · subst hs
    rfl
  · have h1 : ∀ l ∈ splitLinesRaw s, l.getLast? ≠ some '\r' := by
      intro l hl hlast
      exact hcr (splitLinesRaw_mem_subset s l hl '\r'
        (List.mem_of_mem_getLast? hlast))
    have h2 := splitLinesRaw_getLast_ne_nil s hs hnl
    unfold rustLines
    rw [processPieces_eq_self (splitLinesRaw s) h1 h2,
      joinLines_splitLinesRaw]

theorem joinLines_mem (ls : List (List Char)) :
    ∀ c ∈ joinLines ls, c = '\n' ∨ ∃ l ∈ ls, c ∈ l := by
  induction ls with
  | nil =>
      intro c hc
      simp [joinLines] at hc
  | cons l rest ih =>
      intro c hc
      cases rest with
      | nil =>
          simp only [joinLines] at hc
          exact Or.inr ⟨l, by simp, hc⟩
      | cons l2 rest2 =>
          simp only [joinLines] at hc
          rcases List.mem_append.mp hc with h1 | h1
          · exact Or.inr ⟨l, by simp, h1⟩
          · rcases List.mem_cons.mp h1 with h2 | h2
            · exact Or.inl h2
            · rcases ih c h2 with h3 | ⟨l3, hl3, hcl3⟩
              · exact Or.inl h3
              · exact Or.inr ⟨l3, List.mem_cons_of_mem l hl3, hcl3⟩

theorem replaceCRLF_of_no_cr : ∀ (s : List Char), '\r' ∉ s →
    replaceCRLF s = s
  | [], _ => rfl
  | [_], _ => rfl
  | c1 :: c2 :: rest, h => by
      have hc1 : c1 ≠ '\r' := fun hx => h (by simp [hx])
      rw [replaceCRLF, if_neg (fun hx => hc1 hx.1),
        replaceCRLF_of_no_cr (c2 :: rest)
          (fun hx => h (List.mem_cons_of_mem c1 hx))]

theorem keepChar_nil (c : Char) : keepChar [] c = true := by
  unfold keepChar
  split_ifs <;> rfl

theorem sanitize_allKeep (s : List Char) (codes : List Nat) :
    ∀ c ∈ sanitizeControlChars s codes, keepChar codes c = true := by
  unfold sanitizeControlChars
  split_ifs with h
  · have : codes = [] := List.isEmpty_iff.mp h
    subst this
    intro c _
    exact keepChar_nil c
  · intro c hc
    exact List.of_mem_filter hc

theorem sanitize_eq_self (s : List Char) (codes : List Nat)
    (h : ∀ c ∈ s, keepChar codes c = true) :
    sanitizeControlChars s codes = s := by
  unfold sanitizeControlChars
  split_ifs
  · rfl
  · exact List.filter_eq_self.mpr h

theorem trimStage_chars (s : List Char) :
    ∀ c ∈ trimStage s, c = '\n' ∨ c ∈ s := by
  intro c hc
  rcases joinLines_mem _ c hc with h1 | ⟨l, hl, hcl⟩
  · exact Or.inl h1
  · rw [List.mem_map] at hl
    obtain ⟨l0, hl0, rfl⟩ := hl
    exact Or.inr (rustLines_mem_subset s l0 hl0 c (trimEnd_subset l0 c hcl))

theorem removeRepeatedLines_chars (minOcc maxlen : Nat) (s : List Char) :
    ∀ c ∈ removeRepeatedLines minOcc maxlen s, c = '\n' ∨ c ∈ s := by
  intro c hc
  rcases joinLines_mem _ c hc with h1 | ⟨l, hl, hcl⟩
  · exact Or.inl h1
  · exact Or.inr (rustLines_mem_subset s l (List.mem_of_mem_filter hl) c hcl)

theorem removeByRegex_chars (matcher : List Char → Bool) (s : List Char) :
    ∀ c ∈ removeByRegex matcher s, c = '\n' ∨ c ∈ s := by
  intro c hc
  rcases joinLines_mem _ c hc with h1 | ⟨l, hl, hcl⟩
  · exact Or.inl h1
  · exact Or.inr (rustLines_mem_subset s l (List.mem_of_mem_filter hl) c hcl)

theorem rustLines_joinLines_sat (Q : List Char → Prop)
    (hQ : ∀ l, Q l → Q (dropTrailCR l)) (ls : List (List Char))
    (hnl : ∀ l ∈ ls, '\n' ∉ l) (hall : ∀ l ∈ ls, Q l) :
    ∀ l ∈ rustLines (joinLines ls), Q l := by
  rw [rustLines_joinLines ls hnl]
  intro l hl
  obtain ⟨p, hp, hor⟩ := processPieces_mem ls l hl
  rcases hor with h1 | h1
  · exact h1 ▸ hall p hp
  · exact h1 ▸ hQ p (hall p hp)

theorem repeatedCount_processPieces_le (m : Nat) (t : List Char) :
    ∀ (ls : List (List Char)),
      repeatedCount (processPieces ls) m t ≤ repeatedCount ls m t := by
  intro ls
  unfold repeatedCount
  induction ls with
  | nil => simp [processPieces]
  | cons p rest ih =>
      cases rest with
      | nil =>
          simp only [processPieces]
          split_ifs
          · simp [List.countP_cons]
          · exact le_refl _
      | cons q qs =>
          simp only [processPieces]
          rw [List.countP_cons, List.countP_cons]
          have heq : (eligibleLine m (dropTrailCR p) &&
              (trimBoth (dropTrailCR p) == t)) =
              (eligibleLine m p && (trimBoth p == t)) := by
            rw [eligibleLine_dropTrailCR, trimBoth_dropTrailCR]
          rw [heq]
          have := ih
          omega

theorem repeatedCount_filter_le (q : List Char → Bool)
    (ls : List (List Char)) (m : Nat) (t : List Char) :
    repeatedCount (ls.filter q) m t ≤ repeatedCount ls m t := by
  unfold repeatedCount
  rw [List.countP_filter]
  exact List.countP_mono_left (fun a _ h => by
    rw [Bool.and_eq_true] at h
    exact h.1)

theorem keepChar_newline (codes : List Nat) : keepChar codes '\n' = true := by
  unfold keepChar
  rw [if_pos (Or.inl rfl)]

theorem keep_propagate (codes : List Nat) (s s' : List Char)
    (hstep : ∀ c ∈ s', c = '\n' ∨ c ∈ s)
    (hs : ∀ c ∈ s, keepChar codes c = true) :
    ∀ c ∈ s', keepChar codes c = true := by
  intro c hc
  rcases hstep c hc with h1 | h1
  · subst h1
    exact keepChar_newline codes
  · exact hs c h1

theorem trimStage_lines_trimmed (s : List Char) :
    ∀ l ∈ rustLines (trimStage s), trimEnd l = l := by
  unfold trimStage
  apply rustLines_joinLines_sat (fun l => trimEnd l = l)
  · intro l hl
    rw [dropTrailCR_of_trimEnd_fixed l hl]
    exact hl
  · intro l hl
    rw [List.mem_map] at hl
    obtain ⟨l0, hl0, rfl⟩ := hl
    intro hmem
    exact rustLines_no_newline s l0 hl0 (trimEnd_subset l0 '\n' hmem)
  · intro l hl
    rw [List.mem_map] at hl
    obtain ⟨l0, _, rfl⟩ := hl
    exact trimEnd_idem l0

theorem removeRepeatedLines_lines_sat (minOcc maxlen : Nat) (s : List Char) :
    ∀ l ∈ rustLines (removeRepeatedLines minOcc maxlen s),
      (trimBoth l).isEmpty = true ∨
        repeatedCount (rustLines s) maxlen (trimBoth l) < minOcc := by
  unfold removeRepeatedLines
  apply rustLines_joinLines_sat (fun l => (trimBoth l).isEmpty = true ∨
    repeatedCount (rustLines s) maxlen (trimBoth l) < minOcc)
  · intro l hl
    rw [trimBoth_dropTrailCR]
    exact hl
  · intro l hl
    exact rustLines_no_newline s l (List.mem_of_mem_filter hl)
  · intro l hl
    have hmem := List.of_mem_filter hl
    rcases Bool.or_eq_true_iff.mp hmem with h1 | h1
    · exact Or.inl h1
    · exact Or.inr (of_decide_eq_true h1)

theorem removeByRegex_lines_sat (matcher : List Char → Bool) (s : List Char) :
    ∀ l ∈ rustLines (removeByRegex matcher s),
      matcher (trimBoth l) = false := by
  unfold removeByRegex
  apply rustLines_joinLines_sat (fun l => matcher (trimBoth l) = false)
  · intro l hl
    rw [trimBoth_dropTrailCR]
    exact hl
  · intro l hl
    exact rustLines_no_newline s l (List.mem_of_mem_filter hl)
  · intro l hl
    have hmem := List.of_mem_filter hl
    simpa using hmem

theorem removeRepeatedLines_lines_pres (Q : List Char → Prop)
    (hQ : ∀ l, Q l → Q (dropTrailCR l)) (minOcc maxlen : Nat)
    (s : List Char) (hs : ∀ l ∈ rustLines s, Q l) :
    ∀ l ∈ rustLines (removeRepeatedLines minOcc maxlen s), Q l := by
  unfold removeRepeatedLines
  exact rustLines_joinLines_sat Q hQ _
    (fun l hl => rustLines_no_newline s l (List.mem_of_mem_filter hl))
    (fun l hl => hs l (List.mem_of_mem_filter hl))

theorem removeByRegex_lines_pres (Q : List Char → Prop)
    (hQ : ∀ l, Q l → Q (dropTrailCR l)) (matcher : List Char → Bool)
    (s : List Char) (hs : ∀ l ∈ rustLines s, Q l) :
    ∀ l ∈ rustLines (removeByRegex matcher s), Q l := by
  unfold removeByRegex
  exact rustLines_joinLines_sat Q hQ _
    (fun l hl => rustLines_no_newline s l (List.mem_of_mem_filter hl))
    (fun l hl => hs l (List.mem_of_mem_filter hl))

theorem repeatedCount_removeRepeatedLines_le (minOcc maxlen m : Nat)
    (t : List Char) (s : List Char) :
    repeatedCount (rustLines (removeRepeatedLines minOcc maxlen s)) m t ≤
      repeatedCount (rustLines s) m t := by
  unfold removeRepeatedLines
  rw [rustLines_joinLines _
    (fun l hl => rustLines_no_newline s l (List.mem_of_mem_filter hl))]
  exact le_trans (repeatedCount_processPieces_le m t _)
    (repeatedCount_filter_le _ _ m t)

theorem repeatedCount_removeByRegex_le (matcher : List Char → Bool)
    (m : Nat) (t : List Char) (s : List Char) :
    repeatedCount (rustLines (removeByRegex matcher s)) m t ≤
      repeatedCount (rustLines s) m t := by
  unfold removeByRegex
  rw [rustLines_joinLines _
    (fun l hl => rustLines_no_newline s l (List.mem_of_mem_filter hl))]
  exact le_trans (repeatedCount_processPieces_le m t _)
    (repeatedCount_filter_le _ _ m t)

theorem trimStage_eq_self (s : List Char) (hcr : '\r' ∉ s)
    (hnl : s.getLast? ≠ some '\n')
    (h : ∀ l ∈ rustLines s, trimEnd l = l) : trimStage s = s := by
  unfold trimStage
  have hmap : (rustLines s).map trimEnd = rustLines s := by
    rw [List.map_congr_left (g := id) h, List.map_id]
  rw [hmap, joinLines_rustLines s hcr hnl]

theorem removeRepeatedLines_eq_self (minOcc maxlen : Nat) (s : List Char)
    (hcr : '\r' ∉ s) (hnl : s.getLast? ≠ some '\n')
    (h : ∀ l ∈ rustLines s, (trimBoth l).isEmpty = true ∨
      repeatedCount (rustLines s) maxlen (trimBoth l) < minOcc) :
    removeRepeatedLines minOcc maxlen s = s := by
  unfold removeRepeatedLines
  have hfil : (rustLines s).filter (fun l => (trimBoth l).isEmpty ||
      decide (repeatedCount (rustLines s) maxlen (trimBoth l) < minOcc)) =
      rustLines s := by
    apply List.filter_eq_self.mpr
    intro l hl
    rcases h l hl with h1 | h1
    · simp [h1]
    · simp [h1]
  rw [hfil, joinLines_rustLines s hcr hnl]

theorem removeByRegex_eq_self (matcher : List Char → Bool) (s : List Char)
    (hcr : '\r' ∉ s) (hnl : s.getLast? ≠ some '\n')
    (h : ∀ l ∈ rustLines s, matcher (trimBoth l) = false) :
    removeByRegex matcher s = s := by
  unfold removeByRegex
  have hfil : (rustLines s).filter (fun l => !matcher (trimBoth l)) =
      rustLines s := by
    apply List.filter_eq_self.mpr
    intro l hl
    simp [h l hl]
  rw [hfil, joinLines_rustLines s hcr hnl]

theorem joinParts_singleton (x : List Char) : joinParts [x] = x := rfl

theorem keep_if_trim (codes : List Nat) (s3 : List Char)
    (h3 : ∀ c ∈ s3, keepChar codes c = true) (trimF : Bool) :
    ∀ c ∈ (if trimF then trimStage s3 else s3), keepChar codes c = true := by
  split_ifs
  · exact keep_propagate codes s3 _ (trimStage_chars s3) h3
  · exact h3

theorem keep_if_rep (codes : List Nat) (minOcc maxlen : Nat) (s4 : List Char)
    (h4 : ∀ c ∈ s4, keepChar codes c = true) (repF : Bool) :
    ∀ c ∈ (if repF then removeRepeatedLines minOcc maxlen s4 else s4),
      keepChar codes c = true := by
  split_ifs
  · exact keep_propagate codes s4 _
      (removeRepeatedLines_chars minOcc maxlen s4) h4
  · exact h4

theorem keep_if_reg (codes : List Nat) (matcher : List Char → Bool)
    (s5 : List Char) (h5 : ∀ c ∈ s5, keepChar codes c = true) (regF : Bool) :
    ∀ c ∈ (if regF then removeByRegex matcher s5 else s5),
      keepChar codes c = true := by
  split_ifs
  · exact keep_propagate codes s5 _ (removeByRegex_chars matcher s5) h5
  · exact h5

theorem trimmed_if_rep (minOcc maxlen : Nat) (s4 : List Char)
    (h : ∀ l ∈ rustLines s4, trimEnd l = l) (repF : Bool) :
    ∀ l ∈ rustLines (if repF then removeRepeatedLines minOcc maxlen s4
      else s4), trimEnd l = l := by
  split_ifs
  · exact removeRepeatedLines_lines_pres (fun l => trimEnd l = l)
      (fun l hl => by rw [dropTrailCR_of_trimEnd_fixed l hl]; exact hl)
      minOcc maxlen s4 h
  · exact h

theorem trimmed_if_reg (matcher : List Char → Bool) (s5 : List Char)
    (h : ∀ l ∈ rustLines s5, trimEnd l = l) (regF : Bool) :
    ∀ l ∈ rustLines (if regF then removeByRegex matcher s5 else s5),
      trimEnd l = l := by
  split_ifs
  · exact removeByRegex_lines_pres (fun l => trimEnd l = l)
      (fun l hl => by rw [dropTrailCR_of_trimEnd_fixed l hl]; exact hl)
      matcher s5 h
  · exact h

theorem rep_sat_through_reg (matcher : List Char → Bool) (regF : Bool)
    (minOcc maxlen : Nat) (s4 : List Char) :
    ∀ l ∈ rustLines (if regF then
        removeByRegex matcher (removeRepeatedLines minOcc maxlen s4)
      else removeRepeatedLines minOcc maxlen s4),
      (trimBoth l).isEmpty = true ∨
        repeatedCount (rustLines (if regF then
            removeByRegex matcher (removeRepeatedLines minOcc maxlen s4)
          else removeRepeatedLines minOcc maxlen s4)) maxlen
          (trimBoth l) < minOcc := by
  have base := removeRepeatedLines_lines_sat minOcc maxlen s4
  have predOut : ∀ l ∈ rustLines (if regF then
      removeByRegex matcher (removeRepeatedLines minOcc maxlen s4)
    else removeRepeatedLines minOcc maxlen s4),
      (trimBoth l).isEmpty = true ∨
        repeatedCount (rustLines s4) maxlen (trimBoth l) < minOcc := by
    split_ifs with h
    · exact removeByRegex_lines_pres _
        (fun l hl => by rw [trimBoth_dropTrailCR]; exact hl) matcher _ base
    · exact base
  have cnt : ∀ t, repeatedCount (rustLines (if regF then
      removeByRegex matcher (removeRepeatedLines minOcc maxlen s4)
    else removeRepeatedLines minOcc maxlen s4)) maxlen t ≤
      repeatedCount (rustLines s4) maxlen t := by
    intro t
    split_ifs with h
    · exact le_trans (repeatedCount_removeByRegex_le matcher maxlen t _)
        (repeatedCount_removeRepeatedLines_le minOcc maxlen maxlen t s4)
    · exact repeatedCount_removeRepeatedLines_le minOcc maxlen maxlen t s4
  intro l hl
  rcases predOut l hl with h1 | h1
  · exact Or.inl h1
  · exact Or.inr (lt_of_le_of_lt (cnt (trimBoth l)) h1)

/-- Counterexample to C5 as stated: with only trailing-whitespace trimming
enabled, postprocessing `"x\n\n"` yields `"x\n"`, and postprocessing that
output again yields `"x"` — the `lines()`/`join("\n")` rebuild drops one
trailing newline per pass, so `merge_markdown` is not idempotent for every
configuration. -/
theorem merge_markdown_idempotence_counterexample :
    mergeMarkdown id (fun _ => false)
        ⟨false, false, true, false, 6, 120, false, []⟩
        [mergeMarkdown id (fun _ => false)
          ⟨false, false, true, false, 6, 120, false, []⟩
          [['x', '\n', '\n']]] ≠
      mergeMarkdown id (fun _ => false)
        ⟨false, false, true, false, 6, 120, false, []⟩
        [['x', '\n', '\n']] := by
  decide

/-- C5 (amended): `merge_markdown` applied to its own single-part output is
the identity provided that output contains no carriage return and does not
end with a newline, and that the external NFKC normalizer fixes it when
Unicode normalization is enabled.  Unrestricted idempotence fails: each
line-based stage rebuilds the text with `lines()` followed by
`join("\n")`, which drops one trailing newline per pass, and CRLF
replacement can leave a carriage-return–newline pair behind
(`"\r\r\n"` becomes `"\r\n"`). -/
theorem merge_markdown_idempotent_amended (nfkc : List Char → List Char)
    (matcher : List Char → Bool) (cfg : PostprocessCfg)
    (parts : List (List Char))
    (hcr : '\r' ∉ mergeMarkdown nfkc matcher cfg parts)
    (hnl : (mergeMarkdown nfkc matcher cfg parts).getLast? ≠ some '\n')
    (hnfkc : cfg.normalize_unicode = true →
      nfkc (mergeMarkdown nfkc matcher cfg parts) =
        mergeMarkdown nfkc matcher cfg parts) :
    mergeMarkdown nfkc matcher cfg [mergeMarkdown nfkc matcher cfg parts] =
      mergeMarkdown nfkc matcher cfg parts := by
  set w := mergeMarkdown nfkc matcher cfg parts with hw
  simp only [mergeMarkdown] at hw
  have F3 : ∀ c ∈ w, keepChar cfg.control_chars_to_sanitize c = true := by
    rw [hw]
    exact keep_if_reg _ matcher _
      (keep_if_rep _ _ _ _ (keep_if_trim _ _ (sanitize_allKeep _ _) _) _) _
  have F4 : cfg.trim_trailing_whitespace = true →
      ∀ l ∈ rustLines w, trimEnd l = l := by
    intro ht
    rw [hw, if_pos ht]
    exact trimmed_if_reg matcher _
      (trimmed_if_rep _ _ _ (trimStage_lines_trimmed _) _) _
  have F5 : cfg.remove_repeated_lines = true →
      ∀ l ∈ rustLines w, (trimBoth l).isEmpty = true ∨
        repeatedCount (rustLines w) cfg.repeated_line_max_length
          (trimBoth l) < cfg.repeated_line_min_occurrences := by
    intro hr
    rw [hw, if_pos hr]
    exact rep_sat_through_reg matcher _ _ _ _
  have F6 : cfg.remove_by_regex = true →
      ∀ l ∈ rustLines w, matcher (trimBoth l) = false := by
    intro hx
    rw [hw, if_pos hx]
    exact removeByRegex_lines_sat matcher _
  simp only [mergeMarkdown, joinParts_singleton]
  have h1 : (if cfg.normalize_newlines then replaceCRLF w else w) = w := by
    split_ifs
    · exact replaceCRLF_of_no_cr w hcr
    · rfl
  rw [h1]
  have h2 : (if cfg.normalize_unicode then nfkc w else w) = w := by
    split_ifs with hu
    · exact hnfkc hu
    · rfl
  rw [h2]
  rw [sanitize_eq_self w cfg.control_chars_to_sanitize F3]
  have h4 : (if cfg.trim_trailing_whitespace then trimStage w else w) = w := by
    split_ifs with ht
    · exact trimStage_eq_self w hcr hnl (F4 ht)
    · rfl
  rw [h4]
  have h5 : (if cfg.remove_repeated_lines then
      removeRepeatedLines cfg.repeated_line_min_occurrences
        cfg.repeated_line_max_length w else w) = w := by
    split_ifs with hr
    · exact removeRepeatedLines_eq_self _ _ w hcr hnl (F5 hr)
    · rfl
  rw [h5]
  split_ifs with hx
  · exact removeByRegex_eq_self matcher w hcr hnl (F6 hx)
  · rfl

/-- Witness for the amended C5: a default-like configuration (newline
normalization, trimming, repeated-line removal with threshold 6 and the
regex stage all enabled, Unicode normalization disabled, code 2
sanitized) on the parts `["hello", "world"]`. -/
theorem merge_markdown_idempotent_amended_witness :
    '\r' ∉ mergeMarkdown id (fun _ => false)
        ⟨false, true, true, true, 6, 120, true, [2]⟩
        [['h', 'e', 'l', 'l', 'o'], ['w', 'o', 'r', 'l', 'd']] ∧
    (mergeMarkdown id (fun _ => false)
        ⟨false, true, true, true, 6, 120, true, [2]⟩
        [['h', 'e', 'l', 'l', 'o'], ['w', 'o', 'r', 'l', 'd']]).getLast? ≠
      some '\n' ∧
    mergeMarkdown id (fun _ => false)
        ⟨false, true, true, true, 6, 120, true, [2]⟩
        [mergeMarkdown id (fun _ => false)
          ⟨false, true, true, true, 6, 120, true, [2]⟩
          [['h', 'e', 'l', 'l', 'o'], ['w', 'o', 'r', 'l', 'd']]] =
      mergeMarkdown id (fun _ => false)
        ⟨false, true, true, true, 6, 120, true, [2]⟩
        [['h', 'e', 'l', 'l', 'o'], ['w', 'o', 'r', 'l', 'd']] :=
  ⟨by decide, by decide,
    merge_markdown_idempotent_amended id (fun _ => false)
      ⟨false, true, true, true, 6, 120, true, [2]⟩
      [['h', 'e', 'l', 'l', 'o'], ['w', 'o', 'r', 'l', 'd']]
      (by decide) (by decide) (fun _ => rfl)⟩

/-! ### SHA-256 and job identity

`util::sha256_hex` and `util::hash_file` (`src/util.rs`) delegate the digest
itself to the external `sha2` crate; SHA-256 is therefore implemented here
from the FIPS 180-4 standard, on bytes modelled as `List Nat`. -/

/-- Truncation to a 32-bit word. -/
def w32 (n : Nat) : Nat := n % 4294967296

/-- 32-bit right rotation (the argument is a 32-bit word). -/
def rotr32 (n x : Nat) : Nat := w32 ((x >>> n) ||| (x <<< (32 - n)))

def smallSigma0 (x : Nat) : Nat := rotr32 7 x ^^^ rotr32 18 x ^^^ (x >>> 3)

def smallSigma1 (x : Nat) : Nat := rotr32 17 x ^^^ rotr32 19 x ^^^ (x >>> 10)

def bigSigma0 (x : Nat) : Nat := rotr32 2 x ^^^ rotr32 13 x ^^^ rotr32 22 x

def bigSigma1 (x : Nat) : Nat := rotr32 6 x ^^^ rotr32 11 x ^^^ rotr32 25 x

/-- The SHA-256 round constants (decimal). -/
def sha256K : List Nat :=
  [1116352408, 1899447441, 3049323471, 3921009573,
   961987163, 1508970993, 2453635748, 2870763221,
   3624381080, 310598401, 607225278, 1426881987,
   1925078388, 2162078206, 2614888103, 3248222580,
   3835390401, 4022224774, 264347078, 604807628,
   770255983, 1249150122, 1555081692, 1996064986,
   2554220882, 2821834349, 2952996808, 3210313671,
   3336571891, 3584528711, 113926993, 338241895,
   666307205, 773529912, 1294757372, 1396182291,
   1695183700, 1986661051, 2177026350, 2456956037,
   2730485921, 2820302411, 3259730800, 3345764771,
   3516065817, 3600352804, 4094571909, 275423344,
   430227734, 506948616, 659060556, 883997877,
   958139571, 1322822218, 1537002063, 1747873779,
   1955562222, 2024104815, 2227730452, 2361852424,
   2428436474, 2756734187, 3204031479, 3329325298]

/-- The eight 32-bit working variables of the SHA-256 compression
function. -/
structure Sha256State where
  sa : Nat
  sb : Nat
  sc : Nat
  sd : Nat
  se : Nat
  sf : Nat
  sg : Nat
  sh : Nat
deriving DecidableEq, Repr

/-- The SHA-256 initial hash value (decimal). -/
def sha256H0 : Sha256State :=
  ⟨1779033703, 3144134277, 1013904242, 2773480762, 1359893119, 2600822924,
   528734635, 1541459225⟩

/-- A 64-bit value as 8 big-endian bytes. -/
def be8 (n : Nat) : List Nat :=
  [n >>> 56 % 256, n >>> 48 % 256, n >>> 40 % 256, n >>> 32 % 256,
   n >>> 24 % 256, n >>> 16 % 256, n >>> 8 % 256, n % 256]

/-- A `u64` as 8 little-endian bytes (`u64::to_le_bytes`, used by
`hash_file`). -/
def le8 (n : Nat) : List Nat :=
  [n % 256, n >>> 8 % 256, n >>> 16 % 256, n >>> 24 % 256,
   n >>> 32 % 256, n >>> 40 % 256, n >>> 48 % 256, n >>> 56 % 256]

/-- SHA-256 message padding: append `0x80`, zeros up to 56 mod 64, and the
bit length as 8 big-endian bytes. -/
def sha256Pad (msg : List Nat) : List Nat :=
  msg ++ 0x80 :: List.replicate ((119 - msg.length % 64) % 64) 0 ++
    be8 (msg.length * 8)

/-- Group bytes into 32-bit big-endian words. -/
def toWords : List Nat → List Nat
  | b0 :: b1 :: b2 :: b3 :: rest =>
      (((b0 * 256 + b1) * 256 + b2) * 256 + b3) :: toWords rest
  | _ => []

/-- Extend a 16-word block by `k` further message-schedule words. -/
def extendLoop : Nat → List Nat → List Nat
  | 0, acc => acc
  | k + 1, acc =>
      extendLoop k (acc ++ [w32 (smallSigma1 (acc.getD (acc.length - 2) 0) +
        acc.getD (acc.length - 7) 0 +
        smallSigma0 (acc.getD (acc.length - 15) 0) +
        acc.getD (acc.length - 16) 0)])

/-- The 64-word message schedule of one block. -/
def schedule (block : List Nat) : List Nat := extendLoop 48 block

/-- One SHA-256 compression round. -/
def compressStep (st : Sha256State) (k w : Nat) : Sha256State :=
  let ch := (st.se &&& st.sf) ^^^ ((0xffffffff ^^^ st.se) &&& st.sg)
  let t1 := w32 (st.sh + bigSigma1 st.se + ch + k + w)
  let maj := (st.sa &&& st.sb) ^^^ (st.sa &&& st.sc) ^^^ (st.sb &&& st.sc)
  let t2 := w32 (bigSigma0 st.sa + maj)
  ⟨w32 (t1 + t2), st.sa, st.sb, st.sc, w32 (st.sd + t1), st.se, st.sf, st.sg⟩

/-- Compress one 64-byte block into the running state. -/
def compressBlock (st : Sha256State) (block : List Nat) : Sha256State :=
  let ws := schedule (toWords block)
  let st2 := (sha256K.zip ws).foldl (fun s kw => compressStep s kw.1 kw.2) st
  ⟨w32 (st.sa + st2.sa), w32 (st.sb + st2.sb), w32 (st.sc + st2.sc),
   w32 (st.sd + st2.sd), w32 (st.se + st2.se), w32 (st.sf + st2.sf),
   w32 (st.sg + st2.sg), w32 (st.sh + st2.sh)⟩

/-- Process `n` consecutive 64-byte blocks. -/
def sha256BlocksGo : Nat → Sha256State → List Nat → Sha256State
  | 0, st, _ => st
  | n + 1, st, bytes =>
      sha256BlocksGo n (compressBlock st (bytes.take 64)) (bytes.drop 64)

/-- Process a whole (padded) message, whose length is a multiple of 64. -/
def sha256Blocks (st : Sha256State) (bytes : List Nat) : Sha256State :=
  sha256BlocksGo (bytes.length / 64) st bytes

/-- The SHA-256 digest of a byte string, as eight 32-bit words. -/
def sha256Words (msg : List Nat) : List Nat :=
  let st := sha256Blocks sha256H0 (sha256Pad msg)
  [st.sa, st.sb, st.sc, st.sd, st.se, st.sf, st.sg, st.sh]

/-- A lowercase hexadecimal digit. -/
def hexDigit (n : Nat) : Char :=
  if n < 10 then Char.ofNat (48 + n) else Char.ofNat (87 + n)

/-- A 32-bit word as 8 lowercase hex characters. -/
def wordToHex (w : Nat) : List Char :=
  [hexDigit (w >>> 28 % 16), hexDigit (w >>> 24 % 16),
   hexDigit (w >>> 20 % 16), hexDigit (w >>> 16 % 16),
   hexDigit (w >>> 12 % 16), hexDigit (w >>> 8 % 16),
   hexDigit (w >>> 4 % 16), hexDigit (w % 16)]

/-- `util::sha256_hex` (`src/util.rs` lines 13-17): the SHA-256 digest as
a 64-character lowercase hex string (`format!("{:x}", h.finalize())`). -/
def sha256Hex (bytes : List Nat) : List Char :=
  ((sha256Words bytes).map wordToHex).flatten

/-- `str::as_bytes` on an ASCII string (hex digests and `':'` only). -/
def asciiBytes (s : List Char) : List Nat := s.map Char.toNat

/-- `util::hash_file` (`src/util.rs` lines 25-66), on the file's byte
content; `bytes.length` models `metadata.len()`.  `full_sha256` streams
the whole file through SHA-256; `fast_2x16mb` hashes the first window,
then the last window when the file is larger than one window, then the
size as 8 little-endian bytes; any other mode is a fatal error. -/
def hashFile (mode : String) (fastWindowBytes : Nat) (bytes : List Nat) :
    Except (List Char) (List Char) :=
  if mode = "full_sha256" then .ok (sha256Hex bytes)
  else if mode = "fast_2x16mb" then
    let size := bytes.length
    let w := min fastWindowBytes size
    .ok (sha256Hex ((if 0 < w then
        bytes.take w ++ (if w < size then bytes.drop (size - w) else [])
      else []) ++ le8 size))
  else .error ("unknown hashing.mode: ".toList ++ mode.toList)

/-- The `job_id` computation of `cli::run` (`src/cli.rs` lines 160-167):
`cfg_hash = sha256_hex(cfg.normalized_for_hash())`,
`input_hash = hash_file(cfg, input)`, and
`job_id = sha256_hex("{cfg_hash}:{input_hash}".as_bytes())`.  `cfgSer` is
the byte string of the canonical TOML serialization of the effective
configuration. -/
def jobId (cfgSer : List Nat) (mode : String) (fastWindowBytes : Nat)
    (bytes : List Nat) : Except (List Char) (List Char) :=
  match hashFile mode fastWindowBytes bytes with
  | .error e => .error e
  | .ok inputHash =>
      .ok (sha256Hex (asciiBytes (sha256Hex cfgSer ++ ':' :: inputHash)))

/-- `ConvertOut` (`src/engine/types.rs` lines 36-42); the opaque
`serde_json::Value` metadata is modelled as a string. -/
structure ConvertOut where
  ok : Bool
  markdown : List Char
  warnings : List (List Char)
  meta : String
deriving DecidableEq, Repr

/-- The recognizable missing-capability marker matched by the controller
(`src/pipeline.rs` lines 136-137). -/
def missingPypdfMsg : List Char := "missing pypdf import".toList

/-- The warning recorded when the fallback occurred
(`src/pipeline.rs` line 155). -/
def fallbackWarning : List Char := "native_text failed; fell back to docling".toList

/-- Rust `str::contains(substring)`. -/
def containsSub (needle hay : List Char) : Bool := decide (needle <:+: hay)

/-- The per-chunk conversion step of `Pipeline::run_job`
(`src/pipeline.rs` lines 126-156): dispatch on the policy-chosen engine;
when the chosen engine is `native_text` and the attempt failed or carries
the missing-capability warning, retry the same request with `docling`;
fail the chunk when the final outcome is not ok; record the fallback
warning on success.  The two engine calls on this chunk's request are
modelled by their outcomes `native` and `docling`; the returned flag is
`used_fallback`.  (Error-message interpolation — chunk index, context —
is elided.) -/
def runChunk (chosenEngine : String)
    (native docling : Except (List Char) ConvertOut) :
    Except (List Char) (ConvertOut × Bool) :=
  let out0 : Except (List Char) ConvertOut :=
    if chosenEngine = "docling" then docling
    else if chosenEngine = "native_text" then native
    else .error ("unknown engine: ".toList ++ chosenEngine.toList)
  let needsFallback : Bool :=
    if chosenEngine = "native_text" then
      match out0 with
      | .ok o => !o.ok || o.warnings.any (fun w => containsSub missingPypdfMsg w)
      | .error e => containsSub missingPypdfMsg e
    else false
  let out1 := if needsFallback then docling else out0
  match out1 with
  | .error e => .error e
  | .ok o =>
      if !o.ok then .error ("chunk failed".toList)
      else .ok ({ o with warnings :=
          if needsFallback then o.warnings ++ [fallbackWarning]
          else o.warnings }, needsFallback)

/-- Counterexample to C7 as stated: a `native_text` attempt that fails
with an error whose message does not contain `"missing pypdf import"`
(here, a spawn failure) is NOT retried with docling — the error
propagates and aborts the chunk even though the docling engine would have
succeeded, and no fallback warning is recorded
(`src/pipeline.rs` line 137 inspects the error text for the marker). -/
theorem pipeline_fallback_error_counterexample :
    runChunk "native_text" (.error ("engine spawn failed".toList))
        (.ok ⟨true, ['x'], [], "m"⟩) =
      .error ("engine spawn failed".toList) ∧
    runChunk "native_text" (.error ("engine spawn failed".toList))
        (.ok ⟨true, ['x'], [], "m"⟩) ≠
      .ok (⟨true, ['x'], [fallbackWarning], "m"⟩, true) := by
  have h : runChunk "native_text" (.error ("engine spawn failed".toList))
      (.ok ⟨true, ['x'], [], "m"⟩) =
      .error ("engine spawn failed".toList) := rfl
  exact ⟨h, by rw [h]; exact fun hc => Except.noConfusion hc⟩

/-- C7 (amended): when the policy-selected engine is `native_text` and the
attempt returns `ok:false`, or reports the recognizable missing-capability
marker (`"missing pypdf import"`) — in the warnings of a successful
response or in the error text of a failed one — the controller retries the
same chunk with the full `docling` engine: the final result is exactly
that single docling outcome (so the fallback fires at most once per
chunk), and the fallback warning is appended whenever the chunk
completes.  An `Err` whose message lacks the marker is not retried: the
error propagates unchanged and aborts the chunk. -/
theorem pipeline_native_text_fallback_amended
    (native docling : Except (List Char) ConvertOut) :
    ((match native with
      | .ok o => !o.ok || o.warnings.any (fun w => containsSub missingPypdfMsg w)
      | .error e => containsSub missingPypdfMsg e) = true →
      runChunk "native_text" native docling =
        (match docling with
         | .error e => .error e
         | .ok o =>
             if !o.ok then .error ("chunk failed".toList)
             else .ok ({ o with warnings := o.warnings ++ [fallbackWarning] },
               true)) ∧
      (∀ o used, runChunk "native_text" native docling = .ok (o, used) →
        used = true ∧ fallbackWarning ∈ o.warnings)) ∧
    (∀ e, native = .error e → containsSub missingPypdfMsg e = false →
      runChunk "native_text" native docling = .error e) := by
  constructor
  · intro hfail
    have hmain : runChunk "native_text" native docling =
        (match docling with
         | .error e => .error e
         | .ok o =>
             if !o.ok then .error ("chunk failed".toList)
             else .ok ({ o with warnings := o.warnings ++ [fallbackWarning] },
               true)) := by
      unfold runChunk
      simp only [show (("native_text" : String) = "docling") = False from by simp,
        show (("native_text" : String) = "native_text") = True from by simp,
        if_false, if_true, hfail]
    refine ⟨hmain, ?_⟩
    intro o used h2
    rw [hmain] at h2
    cases docling with
    | error e => simp at h2
    | ok d =>
        change (if !d.ok then Except.error ("chunk failed".toList)
          else Except.ok ({ d with warnings := d.warnings ++ [fallbackWarning] },
            true)) = Except.ok (o, used) at h2
        by_cases hd : d.ok = true
        · rw [if_neg (by simp [hd])] at h2
          simp only [Except.ok.injEq, Prod.mk.injEq] at h2
          obtain ⟨ho, hu⟩ := h2
          subst ho
          subst hu
          exact ⟨rfl, by simp⟩
        · rw [if_pos (by simp [hd])] at h2
          simp at h2
  · intro e hne hmiss
    subst hne
    unfold runChunk
    simp only [show (("native_text" : String) = "docling") = False from by simp,
      show (("native_text" : String) = "native_text") = True from by simp,
      if_false, if_true, hmiss]
    rfl

/-- Witness for the amended C7: an `ok:false` native attempt triggers the
fallback next to a successful docling outcome, and a generic spawn-failure
error is propagated without a retry. -/
theorem pipeline_native_text_fallback_amended_witness :
    (runChunk "native_text" (.ok ⟨false, [], [], "m"⟩)
        (.ok ⟨true, ['x'], [], "m"⟩) =
      (match (Except.ok ⟨true, ['x'], [], "m"⟩ :
          Except (List Char) ConvertOut) with
       | .error e => .error e
       | .ok o =>
           if !o.ok then .error ("chunk failed".toList)
           else .ok ({ o with warnings := o.warnings ++ [fallbackWarning] },
             true)) ∧
      (∀ o used, runChunk "native_text" (.ok ⟨false, [], [], "m"⟩)
          (.ok ⟨true, ['x'], [], "m"⟩) = .ok (o, used) →
        used = true ∧ fallbackWarning ∈ o.warnings)) ∧
    runChunk "native_text" (.error ("engine spawn failed".toList))
        (.ok ⟨true, ['x'], [], "m"⟩) =
      .error ("engine spawn failed".toList) :=
  ⟨(pipeline_native_text_fallback_amended (.ok ⟨false, [], [], "m"⟩)
      (.ok ⟨true, ['x'], [], "m"⟩)).1 rfl,
    (pipeline_native_text_fallback_amended
      (.error ("engine spawn failed".toList))
      (.ok ⟨true, ['x'], [], "m"⟩)).2
      ("engine spawn failed".toList) rfl (by decide)⟩

/-- The possible behaviors of `cli::run` against an existing job
directory.  `noOpSuccess` expresses the spec's claimed third behavior
(succeed without doing any work); the code never produces it. -/
inductive RunAction where
  | failExistingDir
  | executePipeline
  | noOpSuccess
deriving DecidableEq, Repr

/-- The job-directory control flow of `cli::run` (`src/cli.rs`
lines 174-204): when the directory exists and `global.resume` is false the
run fails with "job_dir already exists and resume=false"; in every other
case the function proceeds and unconditionally invokes
`pipeline.run_job` (line 204) — no path returns success without executing
the pipeline. -/
def runDirAction (resume jobDirExists : Bool) : RunAction :=
  if jobDirExists && !resume then RunAction.failExistingDir
  else RunAction.executePipeline

/-- Counterexample to C9 as stated: re-running with resume enabled against
an existing job directory is not a no-op success — `cli::run` proceeds to
execute the entire pipeline again (re-converting every chunk and
overwriting the outputs). -/
theorem job_reuse_counterexample :
    runDirAction true true = RunAction.executePipeline ∧
    runDirAction true true ≠ RunAction.noOpSuccess :=
  ⟨rfl, by decide⟩

/-- C9 (amended): with resume enabled (the default) a re-run against an
existing job directory succeeds by re-executing the whole pipeline into
the same directory — outputs are recomputed and overwritten, so the rerun
is idempotent in effect but not a no-op; with fresh mode (resume
disabled), an existing job directory is an error. -/
theorem job_reuse_amended (resume jobDirExists : Bool) :
    (jobDirExists = true → resume = false →
      runDirAction resume jobDirExists = RunAction.failExistingDir) ∧
    ((resume = true ∨ jobDirExists = false) →
      runDirAction resume jobDirExists = RunAction.executePipeline) := by
  constructor
  · intro h1 h2
    subst h1
    subst h2
    rfl
  · intro h
    rcases h with rfl | rfl
    · cases jobDirExists <;> rfl
    · rfl

/-- Witness for the amended C9 at both relevant inputs: fresh mode on an
existing directory fails; resume on an existing directory executes the
pipeline. -/
theorem job_reuse_amended_witness :
    runDirAction false true = RunAction.failExistingDir ∧
    runDirAction true true = RunAction.executePipeline :=
  ⟨(job_reuse_amended false true).1 rfl rfl,
    (job_reuse_amended true true).2 (Or.inl rfl)⟩

end QuackCheck
